import Mathlib

/-!
Verification of the image normalization and compositing core of the
mockup-manager repository (src/src/lib/imageProcessing.js).

The JavaScript module is shallowly embedded below.  Conventions:

* JS numbers used for geometry are modelled as exact rationals (`ℚ`);
  8-bit pixel channels are modelled as `ℕ` (the source reads them from a
  `Uint8ClampedArray`, so values are 0..255 there).
* A DOM canvas is modelled as its pixel buffer: a width, a height and a
  flat row-major list of RGBA samples (`getImageData` order).
* Fallible code is modelled with `Except`; the thrown error messages of
  the source are represented by the constructors of `ProcError`.
* External collaborators (the browser's resampling `drawImage`, CSS color
  parsing, Unicode NFKD normalization, the PNG encoder and the PSD
  decoder) are taken as explicit function parameters; everything the
  claims quantify over is proved for every behavior of those parameters.
-/

/-- RGBA pixel sample: four 8-bit channels as stored in image data. -/
structure Rgba where
  r : Nat
  g : Nat
  b : Nat
  a : Nat
deriving DecidableEq, Repr

instance : Inhabited Rgba := ⟨⟨0, 0, 0, 0⟩⟩

/-- A canvas pixel buffer: width, height and the flat row-major RGBA data
(the sample of pixel (x, y) sits at index y*width+x). -/
structure Canvas where
  width : Nat
  height : Nat
  pix : List Rgba
deriving DecidableEq, Repr

/-- An RGB color as produced by the border-color sampler
(`detectDominantBorderColor`). -/
structure Color where
  r : Nat
  g : Nat
  b : Nat
deriving DecidableEq, Repr

/-- The placement of a source rectangle inside the target square, as
returned by `computeContainPlacement` (fields x, y, width, height, scale
of the JS object literal). -/
structure PlacementQ where
  x : ℚ
  y : ℚ
  width : ℚ
  height : ℚ
  scale : ℚ
deriving DecidableEq, Repr

/-- Error kinds of the pipeline, one per distinct `throw new Error(...)`
in the module.  `invalidDimensions` is "Dimensiones invalidas para la
conversion.", `psdUnreadable` is "No se pudo leer el PSD.",
`emptyDocument` is "El PSD no tiene capas rasterizables para extraer.". -/
inductive ProcError where
  | invalidDimensions
  | psdUnreadable
  | emptyDocument
deriving DecidableEq, Repr

/-- Embedding of `TARGET_SIZE = 800`. -/
def TARGET_SIZE : Nat := 800

/-- Embedding of `computeContainPlacement(sourceWidth, sourceHeight, size)`
(imageProcessing.js lines 57-75): throws on a non-positive dimension,
otherwise returns the centered "contain" placement. -/
def computeContainPlacement (sourceWidth sourceHeight size : ℚ) :
    Except ProcError PlacementQ :=
  if sourceWidth ≤ 0 ∨ sourceHeight ≤ 0 ∨ size ≤ 0 then
    .error .invalidDimensions
  else
    let scale := min (size / sourceWidth) (size / sourceHeight)
    let width := sourceWidth * scale
    let height := sourceHeight * scale
    let x := (size - width) / 2
    let y := (size - height) / 2
    .ok { x := x, y := y, width := width, height := height, scale := scale }

/-- The contain placement: both placed dimensions fit in the square,
at least one is exactly the square's side, the aspect ratio of the
source is preserved, the result is centered and the scale factor is the
minimum of the two axis ratios.  (Claim C1.) -/
theorem computeContainPlacement_contain
    (sourceWidth sourceHeight size : ℚ)
    (hw : 0 < sourceWidth) (hh : 0 < sourceHeight) (hs : 0 < size) :
    ∃ p, computeContainPlacement sourceWidth sourceHeight size = .ok p ∧
      p.width ≤ size ∧ p.height ≤ size ∧
      (p.width = size ∨ p.height = size) ∧
      p.width / p.height = sourceWidth / sourceHeight ∧
      p.x = (size - p.width) / 2 ∧ p.y = (size - p.height) / 2 ∧
      p.scale = min (size / sourceWidth) (size / sourceHeight) := by
  have hcond : ¬(sourceWidth ≤ 0 ∨ sourceHeight ≤ 0 ∨ size ≤ 0) := by
    push_neg
    exact ⟨hw, hh, hs⟩
  unfold computeContainPlacement
  rw [if_neg hcond]
  refine ⟨_, rfl, ?_⟩
  set scale := min (size / sourceWidth) (size / sourceHeight) with hscale
  have hsw : (0:ℚ) < size / sourceWidth := div_pos hs hw
  have hsh : (0:ℚ) < size / sourceHeight := div_pos hs hh
  have hscalepos : 0 < scale := lt_min hsw hsh
  have hwfit : sourceWidth * (size / sourceWidth) = size :=
    mul_div_cancel₀ size (ne_of_gt hw)
  have hhfit : sourceHeight * (size / sourceHeight) = size :=
    mul_div_cancel₀ size (ne_of_gt hh)
  have hle1 : sourceWidth * scale ≤ size := by
    calc sourceWidth * scale ≤ sourceWidth * (size / sourceWidth) :=
          mul_le_mul_of_nonneg_left (min_le_left _ _) (le_of_lt hw)
      _ = size := hwfit
  have hle2 : sourceHeight * scale ≤ size := by
    calc sourceHeight * scale ≤ sourceHeight * (size / sourceHeight) :=
          mul_le_mul_of_nonneg_left (min_le_right _ _) (le_of_lt hh)
      _ = size := hhfit
  have htouch : sourceWidth * scale = size ∨ sourceHeight * scale = size := by
    rcases min_choice (size / sourceWidth) (size / sourceHeight) with h | h
    · left
      rw [hscale, h, hwfit]
    · right
      rw [hscale, h, hhfit]
  have haspect : (sourceWidth * scale) / (sourceHeight * scale)
      = sourceWidth / sourceHeight :=
    mul_div_mul_right sourceWidth sourceHeight (ne_of_gt hscalepos)
  exact ⟨hle1, hle2, htouch, haspect, rfl, rfl, rfl⟩

/-- Witness for claim C1: the 1600x900 source of the spec's worked
example satisfies the hypotheses and the contain guarantee. -/
theorem computeContainPlacement_contain_witness :
    (0:ℚ) < 1600 ∧ (0:ℚ) < 900 ∧ (0:ℚ) < 800 ∧
    (∃ p, computeContainPlacement 1600 900 800 = .ok p ∧
      p.width ≤ 800 ∧ p.height ≤ 800 ∧
      (p.width = 800 ∨ p.height = 800) ∧
      p.width / p.height = 1600 / 900 ∧
      p.x = (800 - p.width) / 2 ∧ p.y = (800 - p.height) / 2 ∧
      p.scale = min (800 / 1600 : ℚ) (800 / 900)) :=
  ⟨by norm_num, by norm_num, by norm_num,
    computeContainPlacement_contain 1600 900 800
      (by norm_num) (by norm_num) (by norm_num)⟩

/-- The placement calculator fails with `InvalidDimensions` exactly when
some input is non-positive, and succeeds (with a full placement value,
no partial result) otherwise.  (Claim C8.) -/
theorem computeContainPlacement_error_iff (sourceWidth sourceHeight size : ℚ) :
    (computeContainPlacement sourceWidth sourceHeight size
        = .error .invalidDimensions ↔
      (sourceWidth ≤ 0 ∨ sourceHeight ≤ 0 ∨ size ≤ 0)) ∧
    (¬(sourceWidth ≤ 0 ∨ sourceHeight ≤ 0 ∨ size ≤ 0) →
      ∃ p, computeContainPlacement sourceWidth sourceHeight size = .ok p) := by
  by_cases h : sourceWidth ≤ 0 ∨ sourceHeight ≤ 0 ∨ size ≤ 0
  · refine ⟨⟨fun _ => h, fun _ => ?_⟩, fun hc => absurd h hc⟩
    simp [computeContainPlacement, h]
  · refine ⟨⟨fun he => ?_, fun hc => absurd hc h⟩, fun _ => ?_⟩
    · simp [computeContainPlacement, h] at he
    · unfold computeContainPlacement
      rw [if_neg h]
      exact ⟨_, rfl⟩

/-- Embedding of `colorDistanceSquared(r1,g1,b1,r2,g2,b2)` (lines
133-138): squared Euclidean distance of two RGB triples.  Channel
differences can be negative, so the computation lives in `ℤ`. -/
def colorDistanceSquared (r1 g1 b1 r2 g2 b2 : Int) : Int :=
  let dr := r1 - r2
  let dg := g1 - g2
  let db := b1 - b2
  (dr * dr) + (dg * dg) + (db * db)

/-- The flood-fill state of `removeConnectedBackground`: the set of
marked indices (the `visited` Uint8Array, kept as the list of indices
that have been set to 1), the grow-only work `queue` and the read
`pointer` into it. -/
structure FillState where
  visited : List Nat
  queue : List Nat
  pointer : Nat
deriving DecidableEq, Repr

/-- Embedding of the inner `canRemove(index)` of
`removeConnectedBackground` (lines 217-235): a pixel can be removed when
it is unvisited, its alpha is at least the near-zero threshold 18 and
its RGB distance to the target color is within the squared tolerance. -/
def canRemove (pix : List Rgba) (color : Color) (threshold : Int)
    (visited : List Nat) (index : Nat) : Bool :=
  if index ∈ visited then false
  else
    let px := pix.getD index default
    if px.a < 18 then false
    else
      decide (colorDistanceSquared px.r px.g px.b color.r color.g color.b
        ≤ threshold)

/-- The part of `canRemove` that does not depend on the visited marks:
alpha at least 18 and color within tolerance.  (Spec-level helper used
to state and prove the claims; `canRemove` is exactly this plus the
unvisited check, see `canRemove_eq`.) -/
def staticRemovable (pix : List Rgba) (color : Color) (threshold : Int)
    (index : Nat) : Bool :=
  let px := pix.getD index default
  if px.a < 18 then false
  else
    decide (colorDistanceSquared px.r px.g px.b color.r color.g color.b
      ≤ threshold)

theorem canRemove_eq (pix : List Rgba) (color : Color) (threshold : Int)
    (visited : List Nat) (index : Nat) :
    canRemove pix color threshold visited index
      = (decide (index ∉ visited)
          && staticRemovable pix color threshold index) := by
  by_cases h : index ∈ visited <;>
    simp [canRemove, staticRemovable, h]

/-- A pixel that passes the static removability test reads a real entry
of the buffer (the out-of-range default sample has alpha 0 < 18). -/
theorem staticRemovable_lt_length {pix : List Rgba} {color : Color}
    {threshold : Int} {index : Nat}
    (h : staticRemovable pix color threshold index = true) :
    index < pix.length := by
  by_contra hge
  have hd : pix.getD index default = default :=
    List.getD_eq_default _ _ (le_of_not_lt hge)
  have h0 : (default : Rgba).a = 0 := rfl
  simp only [staticRemovable, hd, h0] at h
  norm_num at h

/-- Embedding of the inner `seed(x, y)` (lines 237-243): when the pixel
at (x, y) can be removed it is marked visited and pushed on the queue. -/
def seed (w : Nat) (pix : List Rgba) (color : Color) (threshold : Int)
    (s : FillState) (x y : Nat) : FillState :=
  let index := (y * w) + x
  if canRemove pix color threshold s.visited index then
    { visited := s.visited ++ [index], queue := s.queue ++ [index],
      pointer := s.pointer }
  else s

/-- Embedding of the two seeding loops of `removeConnectedBackground`
(lines 245-252): seed every border pixel of the top and bottom rows,
then of the left and right columns. -/
def seedPhase (w h : Nat) (pix : List Rgba) (color : Color)
    (threshold : Int) : FillState :=
  let s1 := (List.range w).foldl
    (fun s x => seed w pix color threshold
      (seed w pix color threshold s x 0) x (h - 1))
    { visited := [], queue := [], pointer := 0 }
  (List.range h).foldl
    (fun s y => seed w pix color threshold
      (seed w pix color threshold s 0 y) (w - 1) y)
    s1

/-- Embedding of the body of the breadth-first loop (lines 255-273):
read the queue entry at the pointer, and seed its in-bounds 4-connected
neighbors in the order left, right, up, down. -/
def processIndex (w h : Nat) (pix : List Rgba) (color : Color)
    (threshold : Int) (s : FillState) (index : Nat) : FillState :=
  let x := index % w
  let y := index / w
  let s := if 0 < x then seed w pix color threshold s (x - 1) y else s
  let s := if x < w - 1 then seed w pix color threshold s (x + 1) y else s
  let s := if 0 < y then seed w pix color threshold s x (y - 1) else s
  if y < h - 1 then seed w pix color threshold s x (y + 1) else s

/-- The breadth-first loop `while (pointer < queue.length)` of lines
254-273, run on explicit fuel.  `fillVisited` supplies enough fuel for
the loop to drain (see `bfsLoop_drains`), which is how the unbounded JS
`while` is represented in a total language. -/
def bfsLoop (w h : Nat) (pix : List Rgba) (color : Color)
    (threshold : Int) : Nat → FillState → FillState
  | 0, s => s
  | fuel + 1, s =>
    if s.pointer < s.queue.length then
      let index := s.queue.getD s.pointer 0
      let s1 : FillState :=
        { visited := s.visited, queue := s.queue, pointer := s.pointer + 1 }
      bfsLoop w h pix color threshold fuel
        (processIndex w h pix color threshold s1 index)
    else s

/-- The complete flood-fill pass of `removeConnectedBackground`: seed the
border, then drain the queue.  The fuel `pix.length` is sufficient
because every enqueued index addresses a real pixel and no index is
enqueued twice. -/
def fillVisited (c : Canvas) (color : Color) (threshold : Int) : FillState :=
  bfsLoop c.width c.height c.pix color threshold c.pix.length
    (seedPhase c.width c.height c.pix color threshold)

/-- Embedding of the final write-back loop (lines 275-279): set the
alpha channel of every visited index to 0, leaving everything else
untouched.  The extra counter argument tracks the index of the head of
the remaining list. -/
def applyVisited (visited : List Nat) : Nat → List Rgba → List Rgba
  | _, [] => []
  | i, px :: rest =>
    (if i ∈ visited then { px with a := 0 } else px)
      :: applyVisited visited (i + 1) rest

/-- Embedding of `removeConnectedBackground(canvas, color, tolerance)`
(lines 205-282): a null color is a no-op, otherwise flood-fill from the
border and clear the alpha of the visited pixels in place. -/
def removeConnectedBackground (c : Canvas) (color : Option Color)
    (tolerance : Int) : Canvas :=
  match color with
  | none => c
  | some col =>
    let threshold := tolerance * tolerance
    let s := fillVisited c col threshold
    { c with pix := applyVisited s.visited 0 c.pix }

theorem seed_pointer (w : Nat) (pix : List Rgba) (color : Color)
    (threshold : Int) (s : FillState) (x y : Nat) :
    (seed w pix color threshold s x y).pointer = s.pointer := by
  simp only [seed]
  split <;> rfl

theorem seed_visited_mono (w : Nat) (pix : List Rgba) (color : Color)
    (threshold : Int) (s : FillState) (x y i : Nat)
    (h : i ∈ s.visited) : i ∈ (seed w pix color threshold s x y).visited := by
  simp only [seed]
  split
  · exact List.mem_append_left _ h
  · exact h

theorem seed_point (w : Nat) (pix : List Rgba) (color : Color)
    (threshold : Int) (s : FillState) (x y : Nat) :
    (y * w) + x ∈ (seed w pix color threshold s x y).visited ∨
      staticRemovable pix color threshold ((y * w) + x) = false := by
  simp only [seed]
  split
  · exact Or.inl (List.mem_append_right _ (List.mem_singleton.mpr rfl))
  · rename_i hc
    rw [Bool.not_eq_true, canRemove_eq, Bool.and_eq_false_iff] at hc
    rcases hc with hv | hst
    · exact Or.inl (by simpa using hv)
    · exact Or.inr hst

theorem seed_of_static_false (w : Nat) (pix : List Rgba) (color : Color)
    (threshold : Int) (s : FillState) (x y : Nat)
    (hst : staticRemovable pix color threshold ((y * w) + x) = false) :
    seed w pix color threshold s x y = s := by
  have hc : canRemove pix color threshold s.visited ((y * w) + x) = false := by
    rw [canRemove_eq, hst, Bool.and_false]
  simp only [seed, hc]
  simp

/-- Invariant of the flood-fill state: the visited list and the queue
hold the same indices in the same order (both record exactly the
enqueued pixels), the queue has no duplicates, every enqueued pixel is
statically removable in the buffer, and the pointer is inside the
queue. -/
def FillInv (pix : List Rgba) (color : Color) (threshold : Int)
    (s : FillState) : Prop :=
  s.visited = s.queue ∧ s.queue.Nodup ∧
  (∀ i ∈ s.queue, staticRemovable pix color threshold i = true) ∧
  s.pointer ≤ s.queue.length

theorem fillInv_init (pix : List Rgba) (color : Color) (threshold : Int) :
    FillInv pix color threshold { visited := [], queue := [], pointer := 0 } :=
  ⟨rfl, List.nodup_nil, by simp, le_refl 0⟩

theorem seed_inv (w : Nat) (pix : List Rgba) (color : Color)
    (threshold : Int) (s : FillState) (x y : Nat)
    (h : FillInv pix color threshold s) :
    FillInv pix color threshold (seed w pix color threshold s x y) := by
  obtain ⟨hvq, hnd, hst, hp⟩ := h
  simp only [seed]
  split
  · rename_i hc
    rw [canRemove_eq, Bool.and_eq_true] at hc
    obtain ⟨hnv, hstat⟩ := hc
    have hnq : (y * w) + x ∉ s.queue := by
      rw [← hvq]
      simpa using hnv
    refine ⟨by rw [hvq], ?_, ?_, ?_⟩
    · simp [List.nodup_append, hnd, hnq]
    · intro i hi
      rcases List.mem_append.mp hi with hi | hi
      · exact hst i hi
      · rw [List.mem_singleton.mp hi]
        exact hstat
    · calc s.pointer ≤ s.queue.length := hp
        _ ≤ (s.queue ++ [(y * w) + x]).length := by simp
  · exact ⟨hvq, hnd, hst, hp⟩

theorem seedIf_inv (w : Nat) (pix : List Rgba) (color : Color)
    (threshold : Int) (c : Prop) [Decidable c] (s : FillState) (x y : Nat)
    (h : FillInv pix color threshold s) :
    FillInv pix color threshold
      (if c then seed w pix color threshold s x y else s) := by
  split
  · exact seed_inv w pix color threshold s x y h
  · exact h

theorem seedIf_visited_mono (w : Nat) (pix : List Rgba) (color : Color)
    (threshold : Int) (c : Prop) [Decidable c] (s : FillState) (x y i : Nat)
    (h : i ∈ s.visited) :
    i ∈ (if c then seed w pix color threshold s x y else s).visited := by
  split
  · exact seed_visited_mono w pix color threshold s x y i h
  · exact h

theorem processIndex_inv (w h : Nat) (pix : List Rgba) (color : Color)
    (threshold : Int) (s : FillState) (index : Nat)
    (hs : FillInv pix color threshold s) :
    FillInv pix color threshold
      (processIndex w h pix color threshold s index) := by
  simp only [processIndex]
  exact seedIf_inv _ _ _ _ _ _ _ _
    (seedIf_inv _ _ _ _ _ _ _ _
      (seedIf_inv _ _ _ _ _ _ _ _
        (seedIf_inv _ _ _ _ _ _ _ _ hs)))

theorem processIndex_visited_mono (w h : Nat) (pix : List Rgba)
    (color : Color) (threshold : Int) (s : FillState) (index i : Nat)
    (hi : i ∈ s.visited) :
    i ∈ (processIndex w h pix color threshold s index).visited := by
  simp only [processIndex]
  exact seedIf_visited_mono _ _ _ _ _ _ _ _ _
    (seedIf_visited_mono _ _ _ _ _ _ _ _ _
      (seedIf_visited_mono _ _ _ _ _ _ _ _ _
        (seedIf_visited_mono _ _ _ _ _ _ _ _ _ hi)))

theorem seedIf_pointer (w : Nat) (pix : List Rgba) (color : Color)
    (threshold : Int) (c : Prop) [Decidable c] (s : FillState) (x y : Nat) :
    (if c then seed w pix color threshold s x y else s).pointer
      = s.pointer := by
  split
  · exact seed_pointer w pix color threshold s x y
  · rfl

theorem processIndex_pointer (w h : Nat) (pix : List Rgba) (color : Color)
    (threshold : Int) (s : FillState) (index : Nat) :
    (processIndex w h pix color threshold s index).pointer = s.pointer := by
  simp only [processIndex, seedIf_pointer]

theorem bfsLoop_visited_mono (w h : Nat) (pix : List Rgba) (color : Color)
    (threshold : Int) :
    ∀ (fuel : Nat) (s : FillState) (i : Nat), i ∈ s.visited →
      i ∈ (bfsLoop w h pix color threshold fuel s).visited := by
  intro fuel
  induction fuel with
  | zero => intro s i hi; exact hi
  | succ n ih =>
    intro s i hi
    rw [bfsLoop]
    split
    · exact ih _ i (processIndex_visited_mono _ _ _ _ _ _ _ _ hi)
    · exact hi

theorem bfsLoop_inv (w h : Nat) (pix : List Rgba) (color : Color)
    (threshold : Int) :
    ∀ (fuel : Nat) (s : FillState), FillInv pix color threshold s →
      FillInv pix color threshold (bfsLoop w h pix color threshold fuel s) := by
  intro fuel
  induction fuel with
  | zero => intro s hs; exact hs
  | succ n ih =>
    intro s hs
    rw [bfsLoop]
    split
    · rename_i hlt
      refine ih _ (processIndex_inv _ _ _ _ _ _ _ ?_)
      exact ⟨hs.1, hs.2.1, hs.2.2.1, hlt⟩
    · exact hs

/-- A duplicate-free list of numbers all below n has at most n
entries. -/
theorem nodup_lt_length_le (l : List Nat) (n : Nat) (hnd : l.Nodup)
    (hlt : ∀ i ∈ l, i < n) : l.length ≤ n := by
  have hsub : l.toFinset ⊆ Finset.range n := by
    intro i hi
    exact Finset.mem_range.mpr (hlt i (List.mem_toFinset.mp hi))
  calc l.length = l.toFinset.card := (List.toFinset_card_of_nodup hnd).symm
    _ ≤ (Finset.range n).card := Finset.card_le_card hsub
    _ = n := Finset.card_range n

/-- Every queue entry of an invariant-satisfying state addresses a real
pixel of the buffer. -/
theorem fillInv_queue_lt (pix : List Rgba) (color : Color) (threshold : Int)
    (s : FillState) (hs : FillInv pix color threshold s) :
    ∀ i ∈ s.queue, i < pix.length := fun i hi =>
  staticRemovable_lt_length (hs.2.2.1 i hi)

/-- With fuel at least `pix.length - pointer`, the breadth-first loop
drains its queue: the final pointer equals the final queue length. -/
theorem bfsLoop_drains (w h : Nat) (pix : List Rgba) (color : Color)
    (threshold : Int) :
    ∀ (fuel : Nat) (s : FillState), FillInv pix color threshold s →
      pix.length ≤ fuel + s.pointer →
      (bfsLoop w h pix color threshold fuel s).pointer
        = (bfsLoop w h pix color threshold fuel s).queue.length := by
  intro fuel
  induction fuel with
  | zero =>
    intro s hs hf
    have hlen : s.queue.length ≤ pix.length :=
      nodup_lt_length_le _ _ hs.2.1 (fillInv_queue_lt pix color threshold s hs)
    have : s.queue.length ≤ s.pointer := le_trans hlen (by simpa using hf)
    exact le_antisymm hs.2.2.2 this
  | succ n ih =>
    intro s hs hf
    rw [bfsLoop]
    split
    · rename_i hlt
      have hinv1 : FillInv pix color threshold
          { visited := s.visited, queue := s.queue, pointer := s.pointer + 1 } :=
        ⟨hs.1, hs.2.1, hs.2.2.1, hlt⟩
      have hinv2 := processIndex_inv w h pix color threshold _
        (s.queue.getD s.pointer 0) hinv1
      refine ih _ hinv2 ?_
      have hp : (processIndex w h pix color threshold
          { visited := s.visited, queue := s.queue, pointer := s.pointer + 1 }
          (s.queue.getD s.pointer 0)).pointer = s.pointer + 1 :=
        processIndex_pointer w h pix color threshold _ _
      rw [hp]
      omega
    · rename_i hge
      have : s.queue.length ≤ s.pointer := le_of_not_lt hge
      exact le_antisymm hs.2.2.2 this

theorem foldl_fillInv {α : Type} (pix : List Rgba) (color : Color)
    (threshold : Int) (f : FillState → α → FillState)
    (hf : ∀ s a, FillInv pix color threshold s →
      FillInv pix color threshold (f s a)) :
    ∀ (l : List α) (s : FillState), FillInv pix color threshold s →
      FillInv pix color threshold (List.foldl f s l) := by
  intro l
  induction l with
  | nil => intro s hs; exact hs
  | cons hd tl ih => intro s hs; exact ih (f s hd) (hf s hd hs)

theorem seedPhase_inv (w h : Nat) (pix : List Rgba) (color : Color)
    (threshold : Int) :
    FillInv pix color threshold (seedPhase w h pix color threshold) := by
  unfold seedPhase
  refine foldl_fillInv pix color threshold _ ?_ _ _
    (foldl_fillInv pix color threshold _ ?_ _ _
      (fillInv_init pix color threshold))
  · intro s a hs
    exact seed_inv _ _ _ _ _ _ _ (seed_inv _ _ _ _ _ _ _ hs)
  · intro s a hs
    exact seed_inv _ _ _ _ _ _ _ (seed_inv _ _ _ _ _ _ _ hs)

theorem fillVisited_inv (c : Canvas) (color : Color) (threshold : Int) :
    FillInv c.pix color threshold (fillVisited c color threshold) :=
  bfsLoop_inv _ _ _ _ _ _ _
    (seedPhase_inv c.width c.height c.pix color threshold)

theorem fillVisited_drained (c : Canvas) (color : Color) (threshold : Int) :
    (fillVisited c color threshold).pointer
      = (fillVisited c color threshold).queue.length :=
  bfsLoop_drains _ _ _ _ _ _ _
    (seedPhase_inv c.width c.height c.pix color threshold)
    (Nat.le_add_right _ _)

theorem applyVisited_length (V : List Nat) :
    ∀ (i : Nat) (l : List Rgba), (applyVisited V i l).length = l.length := by
  intro i l
  induction l generalizing i with
  | nil => rfl
  | cons px rest ih => simp [applyVisited, ih]

theorem applyVisited_getD (V : List Nat) :
    ∀ (l : List Rgba) (i j : Nat),
      (applyVisited V i l).getD j default =
        if (i + j) ∈ V ∧ j < l.length then
          { l.getD j default with a := 0 }
        else l.getD j default := by
  intro l
  induction l with
  | nil => intro i j; simp [applyVisited]
  | cons px rest ih =>
    intro i j
    cases j with
    | zero => simp [applyVisited]
    | succ j' =>
      simp only [applyVisited, List.getD_cons_succ]
      rw [ih (i + 1) j']
      have harith : i + 1 + j' = i + (j' + 1) := by omega
      have hlen : (j' < rest.length) = (j' + 1 < (px :: rest).length) := by
        simp
      rw [harith]
      by_cases hmem : i + (j' + 1) ∈ V
      · simp [hmem]
      · simp [hmem]

theorem applyVisited_nil : ∀ (i : Nat) (l : List Rgba),
    applyVisited [] i l = l := by
  intro i l
  induction l generalizing i with
  | nil => rfl
  | cons px rest ih => simp [applyVisited, ih]

/-- The flood fill of `removeConnectedBackground` enqueues every pixel
index at most once (the queue has no duplicates, because a pixel is
marked visited at the moment it is enqueued and `canRemove` rejects
visited pixels), so when the buffer invariant length = width*height
holds, the queue never exceeds width*height entries and the
breadth-first loop drains completely (the pointer reaches the end of
the queue).  (Claim C9.) -/
theorem removeConnectedBackground_queue_bound (c : Canvas) (color : Color)
    (tolerance : Int) (hlen : c.pix.length = c.width * c.height) :
    (fillVisited c color (tolerance * tolerance)).queue.Nodup ∧
    (fillVisited c color (tolerance * tolerance)).queue.length
      ≤ c.width * c.height ∧
    (fillVisited c color (tolerance * tolerance)).pointer
      = (fillVisited c color (tolerance * tolerance)).queue.length := by
  have hinv := fillVisited_inv c color (tolerance * tolerance)
  refine ⟨hinv.2.1, ?_, fillVisited_drained c color (tolerance * tolerance)⟩
  have hbound := nodup_lt_length_le _ c.pix.length hinv.2.1
    (fillInv_queue_lt _ _ _ _ hinv)
  rwa [hlen] at hbound

/-- Witness for claim C9 on a concrete 2x2 all-white buffer. -/
theorem removeConnectedBackground_queue_bound_witness :
    ((Canvas.mk 2 2 [⟨255,255,255,255⟩, ⟨255,255,255,255⟩,
        ⟨255,255,255,255⟩, ⟨255,255,255,255⟩]).pix.length = 2 * 2) ∧
    ((fillVisited (Canvas.mk 2 2 [⟨255,255,255,255⟩, ⟨255,255,255,255⟩,
        ⟨255,255,255,255⟩, ⟨255,255,255,255⟩]) ⟨255,255,255⟩
        (40 * 40)).queue.Nodup ∧
      (fillVisited (Canvas.mk 2 2 [⟨255,255,255,255⟩, ⟨255,255,255,255⟩,
        ⟨255,255,255,255⟩, ⟨255,255,255,255⟩]) ⟨255,255,255⟩
        (40 * 40)).queue.length ≤ 2 * 2 ∧
      (fillVisited (Canvas.mk 2 2 [⟨255,255,255,255⟩, ⟨255,255,255,255⟩,
        ⟨255,255,255,255⟩, ⟨255,255,255,255⟩]) ⟨255,255,255⟩
        (40 * 40)).pointer
        = (fillVisited (Canvas.mk 2 2 [⟨255,255,255,255⟩, ⟨255,255,255,255⟩,
        ⟨255,255,255,255⟩, ⟨255,255,255,255⟩]) ⟨255,255,255⟩
        (40 * 40)).queue.length) :=
  ⟨by decide,
    removeConnectedBackground_queue_bound
      (Canvas.mk 2 2 [⟨255,255,255,255⟩, ⟨255,255,255,255⟩,
        ⟨255,255,255,255⟩, ⟨255,255,255,255⟩]) ⟨255,255,255⟩ 40 (by decide)⟩

/-- The background remover only mutates alpha: with a null target color
the buffer is returned untouched; with a target color the dimensions
and buffer length are preserved, every visited pixel (all of which
matched the color within tolerance with alpha above the threshold in
the input) keeps its red, green and blue channels and gets alpha 0, and
every unvisited pixel is unchanged bit for bit.  (Claim C5.) -/
theorem removeConnectedBackground_alpha_only (c : Canvas) (color : Color)
    (tolerance : Int) :
    removeConnectedBackground c none tolerance = c ∧
    (removeConnectedBackground c (some color) tolerance).width = c.width ∧
    (removeConnectedBackground c (some color) tolerance).height = c.height ∧
    (removeConnectedBackground c (some color) tolerance).pix.length
      = c.pix.length ∧
    (∀ i ∈ (fillVisited c color (tolerance * tolerance)).visited,
      staticRemovable c.pix color (tolerance * tolerance) i = true) ∧
    (∀ i ∈ (fillVisited c color (tolerance * tolerance)).visited,
      ((removeConnectedBackground c (some color) tolerance).pix.getD i
          default).r = (c.pix.getD i default).r ∧
      ((removeConnectedBackground c (some color) tolerance).pix.getD i
          default).g = (c.pix.getD i default).g ∧
      ((removeConnectedBackground c (some color) tolerance).pix.getD i
          default).b = (c.pix.getD i default).b ∧
      ((removeConnectedBackground c (some color) tolerance).pix.getD i
          default).a = 0) ∧
    (∀ i, i ∉ (fillVisited c color (tolerance * tolerance)).visited →
      (removeConnectedBackground c (some color) tolerance).pix.getD i default
        = c.pix.getD i default) := by
  have hinv := fillVisited_inv c color (tolerance * tolerance)
  have hres : (removeConnectedBackground c (some color) tolerance).pix
      = applyVisited (fillVisited c color (tolerance * tolerance)).visited
          0 c.pix := rfl
  refine ⟨rfl, rfl, rfl, ?_, ?_, ?_, ?_⟩
  · rw [hres, applyVisited_length]
  · intro i hi
    refine hinv.2.2.1 i ?_
    rwa [← hinv.1]
  · intro i hi
    rw [hres, applyVisited_getD]
    by_cases hlt : i < c.pix.length
    · simp [hi, hlt]
    · have hd : c.pix.getD i default = default :=
        List.getD_eq_default _ _ (le_of_not_lt hlt)
      have hcond : ¬((0 + i ∈
          (fillVisited c color (tolerance * tolerance)).visited) ∧
          i < c.pix.length) := fun hc => hlt hc.2
      rw [if_neg hcond, hd]
      exact ⟨rfl, rfl, rfl, rfl⟩
  · intro i hi
    rw [hres, applyVisited_getD]
    simp [hi]

theorem foldl_visited_mono {α : Type} (f : FillState → α → FillState)
    (hf : ∀ s a i, i ∈ s.visited → i ∈ (f s a).visited) :
    ∀ (l : List α) (s : FillState) (i : Nat), i ∈ s.visited →
      i ∈ (List.foldl f s l).visited := by
  intro l
  induction l with
  | nil => intro s i hi; exact hi
  | cons hd tl ih => intro s i hi; exact ih (f s hd) i (hf s hd i hi)

theorem foldl_point {α : Type} (f : FillState → α → FillState)
    (hf : ∀ s a i, i ∈ s.visited → i ∈ (f s a).visited)
    (idx : α → Nat) (bad : α → Prop)
    (hstep : ∀ s a, idx a ∈ (f s a).visited ∨ bad a) :
    ∀ (l : List α) (s : FillState) (a : α), a ∈ l →
      idx a ∈ (List.foldl f s l).visited ∨ bad a := by
  intro l
  induction l with
  | nil => intro s a ha; exact absurd ha (List.not_mem_nil a)
  | cons hd tl ih =>
    intro s a ha
    rcases List.mem_cons.mp ha with rfl | hmem
    · rcases hstep s a with h | h
      · exact Or.inl (foldl_visited_mono f hf tl (f s a) _ h)
      · exact Or.inr h
    · exact ih (f s hd) a hmem

theorem foldl_fix {α β : Type} (f : β → α → β) :
    ∀ (l : List α) (s : β), (∀ a ∈ l, ∀ t, f t a = t) →
      List.foldl f s l = s := by
  intro l
  induction l with
  | nil => intro s _; rfl
  | cons hd tl ih =>
    intro s hfix
    rw [List.foldl_cons, hfix hd (List.mem_cons_self hd tl)]
    exact ih s fun a ha t => hfix a (List.mem_cons_of_mem hd ha) t

/-- After the border seeding loops, every border pixel is either marked
visited or fails the visited-independent removability test (it is the
one-or-the-other outcome of its `seed` call, preserved by the later
seeding because marks only grow). -/
theorem seedPhase_border (w h : Nat) (pix : List Rgba) (color : Color)
    (threshold : Int) :
    (∀ x, x < w →
      (((0 * w) + x ∈ (seedPhase w h pix color threshold).visited ∨
        staticRemovable pix color threshold ((0 * w) + x) = false) ∧
       (((h - 1) * w) + x ∈ (seedPhase w h pix color threshold).visited ∨
        staticRemovable pix color threshold (((h - 1) * w) + x) = false))) ∧
    (∀ y, y < h →
      (((y * w) + 0 ∈ (seedPhase w h pix color threshold).visited ∨
        staticRemovable pix color threshold ((y * w) + 0) = false) ∧
       ((y * w) + (w - 1) ∈ (seedPhase w h pix color threshold).visited ∨
        staticRemovable pix color threshold ((y * w) + (w - 1)) = false))) := by
  have hmono1 : ∀ (s : FillState) (a i : Nat), i ∈ s.visited →
      i ∈ (seed w pix color threshold
        (seed w pix color threshold s a 0) a (h - 1)).visited :=
    fun s a i hi => seed_visited_mono _ _ _ _ _ _ _ _
      (seed_visited_mono _ _ _ _ _ _ _ _ hi)
  have hmono2 : ∀ (s : FillState) (a i : Nat), i ∈ s.visited →
      i ∈ (seed w pix color threshold
        (seed w pix color threshold s 0 a) (w - 1) a).visited :=
    fun s a i hi => seed_visited_mono _ _ _ _ _ _ _ _
      (seed_visited_mono _ _ _ _ _ _ _ _ hi)
  have htop : ∀ (s : FillState) (a : Nat),
      (0 * w) + a ∈ (seed w pix color threshold
        (seed w pix color threshold s a 0) a (h - 1)).visited ∨
      staticRemovable pix color threshold ((0 * w) + a) = false := by
    intro s a
    rcases seed_point w pix color threshold s a 0 with hmem | hbad
    · exact Or.inl (seed_visited_mono _ _ _ _ _ _ _ _ hmem)
    · exact Or.inr hbad
  have hbot : ∀ (s : FillState) (a : Nat),
      ((h - 1) * w) + a ∈ (seed w pix color threshold
        (seed w pix color threshold s a 0) a (h - 1)).visited ∨
      staticRemovable pix color threshold (((h - 1) * w) + a) = false :=
    fun s a => seed_point w pix color threshold _ a (h - 1)
  have hleft : ∀ (s : FillState) (a : Nat),
      (a * w) + 0 ∈ (seed w pix color threshold
        (seed w pix color threshold s 0 a) (w - 1) a).visited ∨
      staticRemovable pix color threshold ((a * w) + 0) = false := by
    intro s a
    rcases seed_point w pix color threshold s 0 a with hmem | hbad
    · exact Or.inl (seed_visited_mono _ _ _ _ _ _ _ _ hmem)
    · exact Or.inr hbad
  have hright : ∀ (s : FillState) (a : Nat),
      (a * w) + (w - 1) ∈ (seed w pix color threshold
        (seed w pix color threshold s 0 a) (w - 1) a).visited ∨
      staticRemovable pix color threshold ((a * w) + (w - 1)) = false :=
    fun s a => seed_point w pix color threshold _ (w - 1) a
  unfold seedPhase
  dsimp only
  refine ⟨fun x hx => ⟨?_, ?_⟩, fun y hy => ⟨?_, ?_⟩⟩
  · have h1 := foldl_point _ hmono1 (fun a => (0 * w) + a)
      (fun a => staticRemovable pix color threshold ((0 * w) + a) = false)
      htop (List.range w) { visited := [], queue := [], pointer := 0 } x
      (List.mem_range.mpr hx)
    exact h1.imp_left (foldl_visited_mono _ hmono2 (List.range h) _ _)
  · have h1 := foldl_point _ hmono1 (fun a => ((h - 1) * w) + a)
      (fun a => staticRemovable pix color threshold
        (((h - 1) * w) + a) = false)
      hbot (List.range w) { visited := [], queue := [], pointer := 0 } x
      (List.mem_range.mpr hx)
    exact h1.imp_left (foldl_visited_mono _ hmono2 (List.range h) _ _)
  · exact foldl_point _ hmono2 (fun a => (a * w) + 0)
      (fun a => staticRemovable pix color threshold ((a * w) + 0) = false)
      hleft (List.range h) _ y (List.mem_range.mpr hy)
  · exact foldl_point _ hmono2 (fun a => (a * w) + (w - 1))
      (fun a => staticRemovable pix color threshold
        ((a * w) + (w - 1)) = false)
      hright (List.range h) _ y (List.mem_range.mpr hy)

theorem staticRemovable_of_alpha_lt {pix : List Rgba} {color : Color}
    {threshold : Int} {i : Nat} (h : (pix.getD i default).a < 18) :
    staticRemovable pix color threshold i = false := by
  simp only [staticRemovable]
  rw [if_pos h]

theorem staticRemovable_congr {pix1 pix2 : List Rgba} (color : Color)
    (threshold : Int) (i : Nat)
    (h : pix1.getD i default = pix2.getD i default) :
    staticRemovable pix1 color threshold i
      = staticRemovable pix2 color threshold i := by
  simp only [staticRemovable, h]

theorem bfsLoop_of_drained (w h : Nat) (pix : List Rgba) (color : Color)
    (threshold : Int) (fuel : Nat) (s : FillState)
    (hd : s.queue.length ≤ s.pointer) :
    bfsLoop w h pix color threshold fuel s = s := by
  cases fuel with
  | zero => rfl
  | succ n =>
    rw [bfsLoop, if_neg (not_lt.mpr hd)]

/-- Re-running `removeConnectedBackground` on its own output with the
same color and tolerance changes nothing: every border pixel of the
output either has alpha 0 (it was just removed) or already failed the
color/alpha test in the input, so the second run seeds nothing, visits
nothing and rewrites nothing.  (Claim C3.) -/
theorem removeConnectedBackground_idempotent (c : Canvas)
    (color : Option Color) (tolerance : Int) :
    removeConnectedBackground (removeConnectedBackground c color tolerance)
        color tolerance
      = removeConnectedBackground c color tolerance := by
  cases color with
  | none => rfl
  | some col =>
    have hV : ∀ i ∈ (seedPhase c.width c.height c.pix col
        (tolerance * tolerance)).visited,
        i ∈ (fillVisited c col (tolerance * tolerance)).visited :=
      fun i hi => bfsLoop_visited_mono _ _ _ _ _ _ _ i hi
    have hstatic' : ∀ i,
        (i ∈ (fillVisited c col (tolerance * tolerance)).visited ∨
          staticRemovable c.pix col (tolerance * tolerance) i = false) →
        staticRemovable
          (applyVisited (fillVisited c col (tolerance * tolerance)).visited
            0 c.pix) col (tolerance * tolerance) i = false := by
      intro i hi
      by_cases hmem : i ∈ (fillVisited c col (tolerance * tolerance)).visited
      · by_cases hlt : i < c.pix.length
        · apply staticRemovable_of_alpha_lt
          rw [applyVisited_getD, if_pos ⟨by simpa using hmem, hlt⟩]
          show (0:Nat) < 18
          norm_num
        · apply staticRemovable_of_alpha_lt
          rw [applyVisited_getD, if_neg (fun hx => hlt hx.2),
            List.getD_eq_default _ _ (le_of_not_lt hlt)]
          show (0:Nat) < 18
          norm_num
      · have hget : (applyVisited (fillVisited c col
            (tolerance * tolerance)).visited 0 c.pix).getD i default
            = c.pix.getD i default := by
          rw [applyVisited_getD, if_neg (fun hx => hmem (by simpa using hx.1))]
        rcases hi with hi | hi
        · exact absurd hi hmem
        · rw [staticRemovable_congr col (tolerance * tolerance) i hget]
          exact hi
    have hborder := seedPhase_border c.width c.height c.pix col
      (tolerance * tolerance)
    have htop : ∀ x, x < c.width →
        staticRemovable
          (applyVisited (fillVisited c col (tolerance * tolerance)).visited
            0 c.pix) col (tolerance * tolerance) ((0 * c.width) + x) = false :=
      fun x hx => hstatic' _ (((hborder.1 x hx).1).imp_left (hV _))
    have hbot : ∀ x, x < c.width →
        staticRemovable
          (applyVisited (fillVisited c col (tolerance * tolerance)).visited
            0 c.pix) col (tolerance * tolerance)
          (((c.height - 1) * c.width) + x) = false :=
      fun x hx => hstatic' _ (((hborder.1 x hx).2).imp_left (hV _))
    have hleft : ∀ y, y < c.height →
        staticRemovable
          (applyVisited (fillVisited c col (tolerance * tolerance)).visited
            0 c.pix) col (tolerance * tolerance) ((y * c.width) + 0) = false :=
      fun y hy => hstatic' _ (((hborder.2 y hy).1).imp_left (hV _))
    have hright : ∀ y, y < c.height →
        staticRemovable
          (applyVisited (fillVisited c col (tolerance * tolerance)).visited
            0 c.pix) col (tolerance * tolerance)
          ((y * c.width) + (c.width - 1)) = false :=
      fun y hy => hstatic' _ (((hborder.2 y hy).2).imp_left (hV _))
    have hseed2 : seedPhase c.width c.height
        (applyVisited (fillVisited c col (tolerance * tolerance)).visited
          0 c.pix) col (tolerance * tolerance)
        = { visited := [], queue := [], pointer := 0 } := by
      unfold seedPhase
      dsimp only
      have h1 : List.foldl
          (fun s x => seed c.width
            (applyVisited (fillVisited c col (tolerance * tolerance)).visited
              0 c.pix) col (tolerance * tolerance)
            (seed c.width
              (applyVisited (fillVisited c col
                (tolerance * tolerance)).visited 0 c.pix) col
              (tolerance * tolerance) s x 0) x (c.height - 1))
          { visited := [], queue := [], pointer := 0 }
          (List.range c.width)
          = { visited := [], queue := [], pointer := 0 } := by
        apply foldl_fix
        intro a ha t
        rw [seed_of_static_false _ _ _ _ _ _ _
          (htop a (List.mem_range.mp ha))]
        exact seed_of_static_false _ _ _ _ _ _ _
          (hbot a (List.mem_range.mp ha))
      rw [h1]
      apply foldl_fix
      intro a ha t
      rw [seed_of_static_false _ _ _ _ _ _ _
        (hleft a (List.mem_range.mp ha))]
      exact seed_of_static_false _ _ _ _ _ _ _
        (hright a (List.mem_range.mp ha))
    have hfv2 : fillVisited
        (Canvas.mk c.width c.height
          (applyVisited (fillVisited c col (tolerance * tolerance)).visited
            0 c.pix))
        col (tolerance * tolerance)
        = { visited := [], queue := [], pointer := 0 } := by
      show bfsLoop c.width c.height
        (applyVisited (fillVisited c col (tolerance * tolerance)).visited
          0 c.pix)
        col (tolerance * tolerance)
        (applyVisited (fillVisited c col (tolerance * tolerance)).visited
          0 c.pix).length
        (seedPhase c.width c.height
          (applyVisited (fillVisited c col (tolerance * tolerance)).visited
            0 c.pix)
          col (tolerance * tolerance))
        = { visited := [], queue := [], pointer := 0 }
      rw [hseed2]
      exact bfsLoop_of_drained _ _ _ _ _ _ _ (le_refl 0)
    calc removeConnectedBackground
          (removeConnectedBackground c (some col) tolerance)
          (some col) tolerance
        = Canvas.mk c.width c.height
            (applyVisited
              (fillVisited
                (Canvas.mk c.width c.height
                  (applyVisited
                    (fillVisited c col (tolerance * tolerance)).visited
                    0 c.pix))
                col (tolerance * tolerance)).visited
              0
              (applyVisited
                (fillVisited c col (tolerance * tolerance)).visited
                0 c.pix)) := rfl
      _ = Canvas.mk c.width c.height
            (applyVisited []
              0
              (applyVisited
                (fillVisited c col (tolerance * tolerance)).visited
                0 c.pix)) := by rw [hfv2]
      _ = Canvas.mk c.width c.height
            (applyVisited
              (fillVisited c col (tolerance * tolerance)).visited
              0 c.pix) := by rw [applyVisited_nil]
      _ = removeConnectedBackground c (some col) tolerance := rfl

/-- The 4-connected neighbor relation the breadth-first loop uses when
it processes queue entry j: i is the left, right, up or down neighbor
of j, subject to the same in-bounds guards as the code (lines 258-272,
with x = j % width и y = j / width). -/
def adjacentIndex (w h j i : Nat) : Prop :=
  (0 < j % w ∧ i = ((j / w) * w) + (j % w - 1)) ∨
  (j % w < w - 1 ∧ i = ((j / w) * w) + (j % w + 1)) ∨
  (0 < j / w ∧ i = ((j / w - 1) * w) + (j % w)) ∨
  (j / w < h - 1 ∧ i = ((j / w + 1) * w) + (j % w))

instance (w h j i : Nat) : Decidable (adjacentIndex w h j i) := by
  unfold adjacentIndex
  infer_instance

theorem seed_visited_subset (w : Nat) (pix : List Rgba) (color : Color)
    (threshold : Int) (s : FillState) (x y i : Nat)
    (hi : i ∈ (seed w pix color threshold s x y).visited) :
    i ∈ s.visited ∨ i = (y * w) + x := by
  revert hi
  simp only [seed]
  split
  · intro hi
    rcases List.mem_append.mp hi with hi | hi
    · exact Or.inl hi
    · exact Or.inr (List.mem_singleton.mp hi)
  · exact Or.inl

theorem foldl_pres_mem {α β : Type} (f : β → α → β) (P : β → Prop) :
    ∀ (l : List α) (s : β), (∀ s a, a ∈ l → P s → P (f s a)) → P s →
      P (List.foldl f s l) := by
  intro l
  induction l with
  | nil => intro s _ hs; exact hs
  | cons hd tl ih =>
    intro s hf hs
    exact ih (f s hd)
      (fun t a ha ht => hf t a (List.mem_cons_of_mem hd ha) ht)
      (hf s hd (List.mem_cons_self hd tl) hs)

/-- Seeds added by the border loops stay outside a region R that avoids
the border. -/
theorem seedPhase_reg (w h : Nat) (pix : List Rgba) (color : Color)
    (threshold : Int) (R : List Nat)
    (hb1 : ∀ x, x < w → (0 * w) + x ∉ R ∧ ((h - 1) * w) + x ∉ R)
    (hb2 : ∀ y, y < h → (y * w) + 0 ∉ R ∧ (y * w) + (w - 1) ∉ R) :
    ∀ i ∈ (seedPhase w h pix color threshold).visited, i ∉ R := by
  have hstep : ∀ (t : FillState) (x y : Nat), (y * w) + x ∉ R →
      (∀ i ∈ t.visited, i ∉ R) →
      ∀ i ∈ (seed w pix color threshold t x y).visited, i ∉ R := by
    intro t x y hnew ht i hi
    rcases seed_visited_subset w pix color threshold t x y i hi with h1 | h1
    · exact ht i h1
    · rw [h1]
      exact hnew
  unfold seedPhase
  dsimp only
  have hbase : ∀ i ∈ (FillState.mk [] [] 0).visited, i ∉ R :=
    fun i hi => absurd hi (List.not_mem_nil i)
  have h1 := foldl_pres_mem
    (fun s x => seed w pix color threshold
      (seed w pix color threshold s x 0) x (h - 1))
    (fun s => ∀ i ∈ s.visited, i ∉ R) (List.range w)
    (FillState.mk [] [] 0)
    (fun s a ha hs =>
      hstep _ _ _ (hb1 a (List.mem_range.mp ha)).2
        (hstep _ _ _ (hb1 a (List.mem_range.mp ha)).1 hs))
    hbase
  exact foldl_pres_mem
    (fun s y => seed w pix color threshold
      (seed w pix color threshold s 0 y) (w - 1) y)
    (fun s => ∀ i ∈ s.visited, i ∉ R) (List.range h) _
    (fun s a ha hs =>
      hstep _ _ _ (hb2 a (List.mem_range.mp ha)).2
        (hstep _ _ _ (hb2 a (List.mem_range.mp ha)).1 hs))
    h1

/-- Processing a queue entry that lies outside R cannot mark any pixel
of R: a newly seeded neighbor inside R would make the processed pixel a
ring pixel of R, which by hypothesis is not removable, contradicting
its own presence in the queue. -/
theorem processIndex_reg (w h : Nat) (pix : List Rgba) (color : Color)
    (threshold : Int) (R : List Nat)
    (hring : ∀ j, j < pix.length → ∀ i ∈ R, adjacentIndex w h j i →
      j ∉ R → staticRemovable pix color threshold j = false)
    (j : Nat) (hjlen : j < pix.length) (hjR : j ∉ R)
    (hjstat : staticRemovable pix color threshold j = true)
    (s : FillState) (hs : ∀ i ∈ s.visited, i ∉ R) :
    ∀ i ∈ (processIndex w h pix color threshold s j).visited, i ∉ R := by
  have hstep : ∀ (t : FillState) (x y : Nat),
      (∀ i ∈ t.visited, i ∉ R) → adjacentIndex w h j ((y * w) + x) →
      ∀ i ∈ (seed w pix color threshold t x y).visited, i ∉ R := by
    intro t x y ht hadj i hi
    rcases seed_visited_subset w pix color threshold t x y i hi with h1 | h1
    · exact ht i h1
    · intro hiR
      rw [h1] at hiR
      have hcontra := hring j hjlen _ hiR hadj hjR
      rw [hjstat] at hcontra
      exact Bool.noConfusion hcontra
  have hstepIf : ∀ (c : Prop), ∀ _ : Decidable c, ∀ (t : FillState) (x y : Nat),
      (∀ i ∈ t.visited, i ∉ R) → (c → adjacentIndex w h j ((y * w) + x)) →
      ∀ i ∈ (if c then seed w pix color threshold t x y else t).visited,
        i ∉ R := by
    intro c hc t x y ht hadj
    split
    · rename_i hcc
      exact hstep t x y ht (hadj hcc)
    · exact ht
  simp only [processIndex]
  refine hstepIf _ _ _ _ _ ?_ ?_
  · refine hstepIf _ _ _ _ _ ?_ ?_
    · refine hstepIf _ _ _ _ _ ?_ ?_
      · refine hstepIf _ _ _ _ _ hs ?_
        · intro hcc
          exact Or.inl ⟨hcc, rfl⟩
      · intro hcc
        exact Or.inr (Or.inl ⟨hcc, rfl⟩)
    · intro hcc
      exact Or.inr (Or.inr (Or.inl ⟨hcc, rfl⟩))
  · intro hcc
    exact Or.inr (Or.inr (Or.inr ⟨hcc, rfl⟩))

theorem bfsLoop_reg (w h : Nat) (pix : List Rgba) (color : Color)
    (threshold : Int) (R : List Nat)
    (hring : ∀ j, j < pix.length → ∀ i ∈ R, adjacentIndex w h j i →
      j ∉ R → staticRemovable pix color threshold j = false) :
    ∀ (fuel : Nat) (s : FillState), FillInv pix color threshold s →
      (∀ i ∈ s.visited, i ∉ R) →
      ∀ i ∈ (bfsLoop w h pix color threshold fuel s).visited, i ∉ R := by
  intro fuel
  induction fuel with
  | zero => intro s _ hreg; exact hreg
  | succ n ih =>
    intro s hinv hreg
    rw [bfsLoop]
    split
    · rename_i hlt
      have hjq : s.queue.getD s.pointer 0 ∈ s.queue := by
        rw [List.getD_eq_getElem s.queue 0 hlt]
        exact List.getElem_mem hlt
      have hjvis : s.queue.getD s.pointer 0 ∈ s.visited := by
        rw [hinv.1]
        exact hjq
      have hjstat := hinv.2.2.1 _ hjq
      refine ih _ (processIndex_inv _ _ _ _ _ _ _
          ⟨hinv.1, hinv.2.1, hinv.2.2.1, hlt⟩) ?_
      exact processIndex_reg w h pix color threshold R hring _
        (staticRemovable_lt_length hjstat) (hreg _ hjvis) hjstat _ hreg
    · exact hreg

/-- An interior region whose enclosing ring of pixels is not removable
is never visited by the flood fill, so `removeConnectedBackground`
leaves every one of its pixels unchanged: removal is governed by
4-connected reachability from the border, not by global color match.
(Claim C4.) -/
theorem removeConnectedBackground_preserves_enclosed (c : Canvas)
    (col : Color) (tolerance : Int) (R : List Nat)
    (hb1 : ∀ x, x < c.width →
      (0 * c.width) + x ∉ R ∧ ((c.height - 1) * c.width) + x ∉ R)
    (hb2 : ∀ y, y < c.height →
      (y * c.width) + 0 ∉ R ∧ (y * c.width) + (c.width - 1) ∉ R)
    (hring : ∀ j, j < c.pix.length → ∀ i ∈ R,
      adjacentIndex c.width c.height j i → j ∉ R →
      staticRemovable c.pix col (tolerance * tolerance) j = false) :
    ∀ i ∈ R,
      (removeConnectedBackground c (some col) tolerance).pix.getD i default
        = c.pix.getD i default := by
  have hreg : ∀ i ∈ (fillVisited c col (tolerance * tolerance)).visited,
      i ∉ R :=
    bfsLoop_reg c.width c.height c.pix col (tolerance * tolerance) R hring
      c.pix.length _
      (seedPhase_inv c.width c.height c.pix col (tolerance * tolerance))
      (seedPhase_reg c.width c.height c.pix col (tolerance * tolerance) R
        hb1 hb2)
  intro i hiR
  show (applyVisited (fillVisited c col (tolerance * tolerance)).visited
      0 c.pix).getD i default = c.pix.getD i default
  rw [applyVisited_getD,
    if_neg (fun hx => hreg i (by simpa using hx.1) hiR)]

/-- Witness for claim C4: a 3x3 buffer with a red ring around a white
center pixel; removing white (tolerance 40) leaves the enclosed white
pixel untouched. -/
theorem removeConnectedBackground_preserves_enclosed_witness :
    (∀ x, x < 3 → (0 * 3) + x ∉ [4] ∧ ((3 - 1) * 3) + x ∉ [4]) ∧
    (∀ y, y < 3 → (y * 3) + 0 ∉ [4] ∧ (y * 3) + (3 - 1) ∉ [4]) ∧
    (∀ j, j < (Canvas.mk 3 3 [⟨255,0,0,255⟩, ⟨255,0,0,255⟩, ⟨255,0,0,255⟩,
        ⟨255,0,0,255⟩, ⟨255,255,255,255⟩, ⟨255,0,0,255⟩,
        ⟨255,0,0,255⟩, ⟨255,0,0,255⟩, ⟨255,0,0,255⟩]).pix.length →
      ∀ i ∈ [4], adjacentIndex 3 3 j i → j ∉ [4] →
      staticRemovable (Canvas.mk 3 3 [⟨255,0,0,255⟩, ⟨255,0,0,255⟩,
        ⟨255,0,0,255⟩, ⟨255,0,0,255⟩, ⟨255,255,255,255⟩, ⟨255,0,0,255⟩,
        ⟨255,0,0,255⟩, ⟨255,0,0,255⟩, ⟨255,0,0,255⟩]).pix
        ⟨255,255,255⟩ (40 * 40) j = false) ∧
    (∀ i ∈ [4],
      (removeConnectedBackground (Canvas.mk 3 3 [⟨255,0,0,255⟩,
        ⟨255,0,0,255⟩, ⟨255,0,0,255⟩, ⟨255,0,0,255⟩, ⟨255,255,255,255⟩,
        ⟨255,0,0,255⟩, ⟨255,0,0,255⟩, ⟨255,0,0,255⟩,
        ⟨255,0,0,255⟩]) (some ⟨255,255,255⟩) 40).pix.getD i default
        = (Canvas.mk 3 3 [⟨255,0,0,255⟩, ⟨255,0,0,255⟩, ⟨255,0,0,255⟩,
        ⟨255,0,0,255⟩, ⟨255,255,255,255⟩, ⟨255,0,0,255⟩,
        ⟨255,0,0,255⟩, ⟨255,0,0,255⟩,
        ⟨255,0,0,255⟩]).pix.getD i default) :=
  ⟨by decide, by decide, by decide,
    removeConnectedBackground_preserves_enclosed
      (Canvas.mk 3 3 [⟨255,0,0,255⟩, ⟨255,0,0,255⟩, ⟨255,0,0,255⟩,
        ⟨255,0,0,255⟩, ⟨255,255,255,255⟩, ⟨255,0,0,255⟩,
        ⟨255,0,0,255⟩, ⟨255,0,0,255⟩, ⟨255,0,0,255⟩])
      ⟨255,255,255⟩ 40 [4] (by decide) (by decide) (by decide)⟩

/-- JS `Math.round(num / den)` for non-negative integers: round half
away from zero, i.e. floor(num/den + 1/2). -/
def jsRound (num den : Nat) : Nat := (2 * num + den) / (2 * den)

/-- One bin of the border-color histogram: pixel count and running sums
of the raw (non-quantized) channel values, as in the `bins` map of
`detectDominantBorderColor`. -/
structure BinData where
  count : Nat
  r : Nat
  g : Nat
  b : Nat
deriving DecidableEq, Repr

/-- The bin key of a sample: each channel divided by the bucket size 24
(the `${...}|${...}|${...}` string key of line 161, as a triple). -/
def quantKey (r g b : Nat) : Nat × Nat × Nat := (r / 24, g / 24, b / 24)

/-- Update of the insertion-ordered `bins` map for one sample (lines
162-167): bump the existing bin in place or append a fresh bin at the
end, which is exactly how a JS `Map.set` behaves for iteration order. -/
def updateBins (r g b : Nat) :
    List ((Nat × Nat × Nat) × BinData) →
      List ((Nat × Nat × Nat) × BinData)
  | [] => [(quantKey r g b, ⟨1, r, g, b⟩)]
  | (k, d) :: rest =>
    if k = quantKey r g b then
      (k, ⟨d.count + 1, d.r + r, d.g + g, d.b + b⟩) :: rest
    else (k, d) :: updateBins r g b rest

/-- Embedding of the inner `addPixel(x, y)` (lines 152-168): skip the
sample when its alpha is below 18, otherwise bin it. -/
def addPixel (c : Canvas) (bins : List ((Nat × Nat × Nat) × BinData))
    (p : Nat × Nat) : List ((Nat × Nat × Nat) × BinData) :=
  let px := c.pix.getD ((p.2 * c.width) + p.1) default
  if px.a < 18 then bins
  else updateBins px.r px.g px.b bins

/-- The values `0, step, 2*step, ...` below `limit`, i.e. the index
sequence of `for (v = 0; v < limit; v += step)` for step ≥ 1. -/
def strideList (limit step : Nat) : List Nat :=
  (List.range ((limit + step - 1) / step)).map (fun k => k * step)

/-- The perimeter sampling order of lines 170-177: top and bottom row
interleaved while striding over x, then left and right column while
striding over y. -/
def borderCoords (w h step : Nat) : List (Nat × Nat) :=
  ((strideList w step).map (fun x => [(x, 0), (x, h - 1)])).flatten ++
  ((strideList h step).map (fun y => [(0, y), (w - 1, y)])).flatten

/-- Embedding of the winner loop of lines 179-184: keep the first bin,
replacing it only on a strictly greater count, over the bins in
insertion order. -/
def pickBest :
    Option BinData → List ((Nat × Nat × Nat) × BinData) → Option BinData
  | best, [] => best
  | best, (_, d) :: rest =>
    match best with
    | none => pickBest (some d) rest
    | some b =>
      if b.count < d.count then pickBest (some d) rest
      else pickBest (some b) rest

/-- Embedding of `detectDominantBorderColor(canvas)` (lines 140-194):
none on a degenerate canvas, otherwise sample the border with stride
max(1, floor(min(width, height)/240)), bin the qualifying samples,
take the first strictly-best bin and return the rounded average of its
raw channel sums, with a final guard for an empty histogram. -/
def detectDominantBorderColor (c : Canvas) : Option Color :=
  if c.width = 0 ∨ c.height = 0 then none
  else
    let step := max 1 (min c.width c.height / 240)
    let bins := (borderCoords c.width c.height step).foldl (addPixel c) []
    match pickBest none bins with
    | none => none
    | some best =>
      if best.count = 0 then none
      else some ⟨jsRound best.r best.count, jsRound best.g best.count,
        jsRound best.b best.count⟩

/-- Modelled from the spec's reference algorithm (section 4.3): the
qualifying border samples in sampling order - walk the four edges with
stride max(1, min(width, height)/240) and keep the pixels whose alpha
is at least the near-zero threshold. -/
def borderSamples (c : Canvas) : List Rgba :=
  (borderCoords c.width c.height
      (max 1 (min c.width c.height / 240))).filterMap
    (fun p =>
      let px := c.pix.getD ((p.2 * c.width) + p.1) default
      if px.a < 18 then none else some px)

/-- Modelled from the spec: group the samples into bins keyed by the
quantized triple, tracking count and raw channel sums per bin, in
first-insertion order. -/
def binsOfSamples (samples : List Rgba) :
    List ((Nat × Nat × Nat) × BinData) :=
  samples.foldl (fun bins px => updateBins px.r px.g px.b bins) []

/-- The highest pixel count over the bins. -/
def maxBinCount (bins : List ((Nat × Nat × Nat) × BinData)) : Nat :=
  (bins.map (fun e => e.2.count)).foldr max 0

/-- Modelled from the spec: the winning bin is the one with the highest
count, ties going to the earliest bin in insertion order. -/
def firstMaxBin (bins : List ((Nat × Nat × Nat) × BinData)) :
    Option ((Nat × Nat × Nat) × BinData) :=
  bins.find? (fun e => e.2.count = maxBinCount bins)

/-- The rounded average raw color of a bin's members. -/
def binAverage (d : BinData) : Color :=
  ⟨jsRound d.r d.count, jsRound d.g d.count, jsRound d.b d.count⟩

/-- Modelled from the spec's reference algorithm in section 4.3, stated
as a pipeline: qualifying samples, then bins, then the first maximal
bin, then its average raw color; none for a degenerate buffer or when
no sample qualifies. -/
def specDetectDominantBorderColor (c : Canvas) : Option Color :=
  if c.width = 0 ∨ c.height = 0 then none
  else (firstMaxBin (binsOfSamples (borderSamples c))).map
    (fun e => binAverage e.2)

theorem maxBinCount_cons (k : Nat × Nat × Nat) (d : BinData)
    (rest : List ((Nat × Nat × Nat) × BinData)) :
    maxBinCount ((k, d) :: rest) = max d.count (maxBinCount rest) := rfl

theorem addPixel_foldl (c : Canvas) :
    ∀ (coords : List (Nat × Nat))
      (acc : List ((Nat × Nat × Nat) × BinData)),
      coords.foldl (addPixel c) acc
        = ((coords.filterMap (fun p =>
            let px := c.pix.getD ((p.2 * c.width) + p.1) default
            if px.a < 18 then none else some px)).foldl
            (fun bins px => updateBins px.r px.g px.b bins) acc) := by
  intro coords
  induction coords with
  | nil => intro acc; rfl
  | cons p rest ih =>
    intro acc
    by_cases ha : (c.pix.getD ((p.2 * c.width) + p.1) default).a < 18
    · rw [List.foldl_cons,
        show addPixel c acc p = acc from by
          simp only [addPixel]
          rw [if_pos ha],
        List.filterMap_cons_none (by dsimp only; rw [if_pos ha])]
      exact ih acc
    · rw [List.foldl_cons,
        show addPixel c acc p
            = updateBins (c.pix.getD ((p.2 * c.width) + p.1) default).r
              (c.pix.getD ((p.2 * c.width) + p.1) default).g
              (c.pix.getD ((p.2 * c.width) + p.1) default).b acc from by
          simp only [addPixel]
          rw [if_neg ha],
        List.filterMap_cons_some (by dsimp only; rw [if_neg ha]),
        List.foldl_cons]
      exact ih _

theorem pickBest_of_le :
    ∀ (bins : List ((Nat × Nat × Nat) × BinData)) (b : BinData),
      maxBinCount bins ≤ b.count → pickBest (some b) bins = some b := by
  intro bins
  induction bins with
  | nil => intro b _; rfl
  | cons e rest ih =>
    intro b hle
    obtain ⟨k, d⟩ := e
    rw [maxBinCount_cons] at hle
    have h1 : pickBest (some b) ((k, d) :: rest)
        = pickBest (some b) rest := by
      simp only [pickBest]
      rw [if_neg (not_lt.mpr (le_trans (le_max_left _ _) hle))]
    rw [h1]
    exact ih b (le_trans (le_max_right _ _) hle)

theorem pickBest_of_lt :
    ∀ (bins : List ((Nat × Nat × Nat) × BinData)) (b : BinData),
      b.count < maxBinCount bins →
      pickBest (some b) bins
        = (bins.find? (fun e => e.2.count = maxBinCount bins)).map
            (fun e => e.2) := by
  intro bins
  induction bins with
  | nil =>
    intro b h
    exact absurd h (by simp [maxBinCount])
  | cons e rest ih =>
    intro b hlt
    obtain ⟨k, d⟩ := e
    rcases le_or_lt (maxBinCount rest) d.count with hle | hgt
    · have hbd : b.count < d.count := by
        rw [maxBinCount_cons, max_eq_left hle] at hlt
        exact hlt
      have h1 : pickBest (some b) ((k, d) :: rest)
          = pickBest (some d) rest := by
        simp only [pickBest]
        rw [if_pos hbd]
      rw [h1, pickBest_of_le rest d hle, List.find?_cons_of_pos]
      · rfl
      · simp [maxBinCount_cons, max_eq_left hle]
    · have hM : maxBinCount ((k, d) :: rest) = maxBinCount rest := by
        rw [maxBinCount_cons, max_eq_right (le_of_lt hgt)]
      have hlt' : b.count < maxBinCount rest := by
        rw [hM] at hlt
        exact hlt
      rw [hM, List.find?_cons_of_neg]
      · have h1 : pickBest (some b) ((k, d) :: rest)
            = if b.count < d.count then pickBest (some d) rest
              else pickBest (some b) rest := by
          simp only [pickBest]
        rw [h1]
        by_cases hbd : b.count < d.count
        · rw [if_pos hbd]
          exact ih d hgt
        · rw [if_neg hbd]
          exact ih b hlt'
      · simp only [decide_eq_true_eq]
        omega

theorem pickBest_eq_firstMaxBin
    (bins : List ((Nat × Nat × Nat) × BinData)) :
    pickBest none bins = (firstMaxBin bins).map (fun e => e.2) := by
  cases bins with
  | nil => rfl
  | cons e rest =>
    obtain ⟨k, d⟩ := e
    have h0 : pickBest none ((k, d) :: rest) = pickBest (some d) rest := by
      simp only [pickBest]
    rw [h0]
    unfold firstMaxBin
    rcases le_or_lt (maxBinCount rest) d.count with hle | hgt
    · rw [pickBest_of_le rest d hle, List.find?_cons_of_pos]
      · rfl
      · simp [maxBinCount_cons, max_eq_left hle]
    · have hM : maxBinCount ((k, d) :: rest) = maxBinCount rest := by
        rw [maxBinCount_cons, max_eq_right (le_of_lt hgt)]
      rw [hM, List.find?_cons_of_neg]
      · exact pickBest_of_lt rest d hgt
      · simp only [decide_eq_true_eq]
        omega

theorem foldl_update_count :
    ∀ (samples : List Rgba) (acc : List ((Nat × Nat × Nat) × BinData)),
      (∀ e ∈ acc, 1 ≤ e.2.count) →
      ∀ e ∈ samples.foldl
        (fun bins px => updateBins px.r px.g px.b bins) acc,
        1 ≤ e.2.count := by
  have hupd : ∀ (r g b : Nat) (bins : List ((Nat × Nat × Nat) × BinData)),
      (∀ e ∈ bins, 1 ≤ e.2.count) →
      ∀ e ∈ updateBins r g b bins, 1 ≤ e.2.count := by
    intro r g b bins
    induction bins with
    | nil =>
      intro _ e he
      rw [updateBins] at he
      rw [List.mem_singleton.mp he]
    | cons hd tl ih =>
      intro hbins e he
      obtain ⟨k, d⟩ := hd
      rw [updateBins] at he
      split at he
      · rcases List.mem_cons.mp he with rfl | hmem
        · exact Nat.le_add_left 1 d.count
        · exact hbins e (List.mem_cons_of_mem _ hmem)
      · rcases List.mem_cons.mp he with rfl | hmem
        · exact hbins _ (List.mem_cons_self _ _)
        · exact ih (fun e' he' => hbins e' (List.mem_cons_of_mem _ he'))
            e hmem
  intro samples
  induction samples with
  | nil => intro acc hacc; exact hacc
  | cons px rest ih =>
    intro acc hacc
    exact ih _ (hupd px.r px.g px.b acc hacc)

theorem updateBins_ne_nil (r g b : Nat)
    (bins : List ((Nat × Nat × Nat) × BinData)) :
    updateBins r g b bins ≠ [] := by
  cases bins with
  | nil => simp [updateBins]
  | cons hd tl =>
    obtain ⟨k, d⟩ := hd
    rw [updateBins]
    split <;> simp

theorem binsOfSamples_eq_nil (samples : List Rgba) :
    binsOfSamples samples = [] ↔ samples = [] := by
  constructor
  · intro h
    cases samples with
    | nil => rfl
    | cons px rest =>
      exfalso
      have hne : ∀ (l : List Rgba)
          (acc : List ((Nat × Nat × Nat) × BinData)), acc ≠ [] →
          l.foldl (fun bins px => updateBins px.r px.g px.b bins) acc
            ≠ [] := by
        intro l
        induction l with
        | nil => intro acc hacc; exact hacc
        | cons q qs ih =>
          intro acc _
          exact ih _ (updateBins_ne_nil q.r q.g q.b acc)
      exact hne rest _ (updateBins_ne_nil px.r px.g px.b [])
        (by simpa [binsOfSamples] using h)
  · intro h
    rw [h]
    rfl

theorem maxBinCount_attained :
    ∀ (bins : List ((Nat × Nat × Nat) × BinData)), bins ≠ [] →
      ∃ e ∈ bins, e.2.count = maxBinCount bins := by
  intro bins
  induction bins with
  | nil => intro h; exact absurd rfl h
  | cons e rest ih =>
    intro _
    obtain ⟨k, d⟩ := e
    rcases le_or_lt (maxBinCount rest) d.count with hle | hgt
    · exact ⟨(k, d), List.mem_cons_self _ _,
        by rw [maxBinCount_cons, max_eq_left hle]⟩
    · have hne : rest ≠ [] := by
        intro hnil
        rw [hnil] at hgt
        simp [maxBinCount] at hgt
      obtain ⟨e', he', hc⟩ := ih hne
      refine ⟨e', List.mem_cons_of_mem _ he', ?_⟩
      rw [maxBinCount_cons, max_eq_right (le_of_lt hgt)]
      exact hc

/-- The border sampler conforms to the spec's reference algorithm: it
equals the pipeline "stride max(1, min(width, height)/240) over the four
edges, drop near-transparent samples, bin by channel/24 in insertion
order, take the first bin reaching the maximum count, return the
rounded average of its raw channel sums", and it returns none exactly
for a degenerate buffer or when no sampled pixel qualifies.
(Claim C6.) -/
theorem detectDominantBorderColor_conforms (c : Canvas) :
    detectDominantBorderColor c = specDetectDominantBorderColor c ∧
    (detectDominantBorderColor c = none ↔
      (c.width = 0 ∨ c.height = 0 ∨ borderSamples c = [])) := by
  by_cases h0 : c.width = 0 ∨ c.height = 0
  · constructor
    · simp [detectDominantBorderColor, specDetectDominantBorderColor, h0]
    · simp [detectDominantBorderColor, h0]
      tauto
  · have hD : detectDominantBorderColor c
        = (match pickBest none (binsOfSamples (borderSamples c)) with
          | none => none
          | some best =>
            if best.count = 0 then none
            else some ⟨jsRound best.r best.count,
              jsRound best.g best.count, jsRound best.b best.count⟩) := by
      rw [detectDominantBorderColor, if_neg h0]
      dsimp only
      rw [addPixel_foldl c _ []]
      rfl
    have hS : specDetectDominantBorderColor c
        = (firstMaxBin (binsOfSamples (borderSamples c))).map
            (fun e => binAverage e.2) := by
      rw [specDetectDominantBorderColor, if_neg h0]
    cases hfm : firstMaxBin (binsOfSamples (borderSamples c)) with
    | none =>
      have hbins : binsOfSamples (borderSamples c) = [] := by
        by_contra hne
        obtain ⟨e, he, hc⟩ := maxBinCount_attained _ hne
        have := List.find?_eq_none.mp hfm e he
        simp [hc] at this
      have hsamples : borderSamples c = [] :=
        (binsOfSamples_eq_nil _).mp hbins
      have hpick : pickBest none (binsOfSamples (borderSamples c)) = none := by
        rw [pickBest_eq_firstMaxBin, hfm]
        rfl
      constructor
      · rw [hD, hS, hfm, hpick]
        rfl
      · rw [hD, hpick]
        simp [hsamples]
    | some e =>
      have hpick : pickBest none (binsOfSamples (borderSamples c))
          = some e.2 := by
        rw [pickBest_eq_firstMaxBin, hfm]
        rfl
      have hmem : e ∈ binsOfSamples (borderSamples c) :=
        List.mem_of_find?_eq_some hfm
      have hcount : 1 ≤ e.2.count :=
        foldl_update_count (borderSamples c) [] (by simp) e hmem
      have hne : e.2.count ≠ 0 := by omega
      have hsamples : borderSamples c ≠ [] := by
        intro hs
        rw [(binsOfSamples_eq_nil _).mpr hs] at hmem
        exact absurd hmem (List.not_mem_nil e)
      constructor
      · rw [hD, hS, hfm, hpick]
        dsimp only
        rw [if_neg hne]
        rfl
      · rw [hD, hpick]
        dsimp only
        rw [if_neg hne]
        constructor
        · intro h
          exact Option.noConfusion h
        · intro h
          rcases h with h | h | h
          · exact absurd (Or.inl h) h0
          · exact absurd (Or.inr h) h0
          · exact absurd h hsamples

/-- The character class `[A-Za-z0-9._-]` kept by the final regex of
`sanitizeLayerName` (line 52). -/
def isAllowedChar (ch : Char) : Bool :=
  ('A' ≤ ch && ch ≤ 'Z') || ('a' ≤ ch && ch ≤ 'z') ||
  ('0' ≤ ch && ch ≤ '9') || ch = '.' || ch = '_' || ch = '-'

/-- The file-hostile character class `[\\/:*?"<>|]` of line 50. -/
def isBadFileChar (ch : Char) : Bool :=
  ch = '\\' || ch = '/' || ch = ':' || ch = '*' || ch = '?' ||
  ch = '\x22' || ch = '<' || ch = '>' || ch = '|'

/-- Whitespace for the purposes of `trim` and `\s` (line 45 and 51). -/
def isJsWhitespace (ch : Char) : Bool := ch.isWhitespace

/-- Combining diacritical marks U+0300..U+036F stripped on line 49. -/
def isCombiningMark (ch : Char) : Bool :=
  0x300 ≤ ch.toNat && ch.toNat ≤ 0x36f

/-- `String.prototype.trim`: drop leading and trailing whitespace. -/
def jsTrim (s : List Char) : List Char :=
  ((s.dropWhile isJsWhitespace).reverse.dropWhile isJsWhitespace).reverse

/-- `.replace(/[\\/:*?"<>|]+/g, " ")`: each maximal run of hostile
characters becomes a single space.  The flag records whether the
previous character belonged to a run. -/
def replaceBadAux : Bool → List Char → List Char
  | _, [] => []
  | prevBad, ch :: rest =>
    if isBadFileChar ch then
      if prevBad then replaceBadAux true rest
      else ' ' :: replaceBadAux true rest
    else ch :: replaceBadAux false rest

/-- `.replace(/\s+/g, "_")`: each maximal whitespace run becomes a
single underscore. -/
def collapseWsAux : Bool → List Char → List Char
  | _, [] => []
  | prevWs, ch :: rest =>
    if isJsWhitespace ch then
      if prevWs then collapseWsAux true rest
      else '_' :: collapseWsAux true rest
    else ch :: collapseWsAux false rest

/-- `.replace(/^_+|_+$/g, "")`: drop leading and trailing underscore
runs. -/
def trimUnderscores (s : List Char) : List Char :=
  ((s.dropWhile (fun ch => ch = '_')).reverse.dropWhile
    (fun ch => ch = '_')).reverse

/-- Decimal digit character. -/
def digitChar (n : Nat) : Char :=
  match n with
  | 0 => '0' | 1 => '1' | 2 => '2' | 3 => '3' | 4 => '4'
  | 5 => '5' | 6 => '6' | 7 => '7' | 8 => '8' | _ => '9'

/-- Decimal digits of n, most significant first, on explicit fuel. -/
def natDecimalAux : Nat → Nat → List Char
  | 0, _ => []
  | fuel + 1, n =>
    if n < 10 then [digitChar n]
    else natDecimalAux fuel (n / 10) ++ [digitChar (n % 10)]

/-- The decimal string of a number, as JS template interpolation
produces for a non-negative integer. -/
def natToString (n : Nat) : String := String.mk (natDecimalAux (n + 1) n)

/-- The `safe` value of `sanitizeLayerName` (lines 47-53): the trimmed
name (or the fallback `layer_{index+1}` when it is empty) pushed
through NFKD normalization, combining-mark removal, hostile-character
collapsing, whitespace collapsing, the character whitelist and
underscore trimming.  NFKD is the platform's `String.normalize`, taken
as a parameter. -/
def sanitizeCore (normalize : String → String) (name : Option String)
    (fallbackIndex : Nat) : List Char :=
  let raw := jsTrim (name.getD "").data
  let base := if raw = [] then
      ("layer_" ++ natToString (fallbackIndex + 1)).data
    else raw
  trimUnderscores
    (((collapseWsAux false
        (replaceBadAux false
          ((normalize (String.mk base)).data.filter
            (fun ch => !isCombiningMark ch)))).filter
      (fun ch => isAllowedChar ch)))

/-- Embedding of `sanitizeLayerName(name, fallbackIndex)` (lines
44-55): the sanitized name, or `layer_{fallbackIndex+1}` when nothing
survives sanitization. -/
def sanitizeLayerName (normalize : String → String) (name : Option String)
    (fallbackIndex : Nat) : String :=
  if sanitizeCore normalize name fallbackIndex = [] then
    "layer_" ++ natToString (fallbackIndex + 1)
  else String.mk (sanitizeCore normalize name fallbackIndex)

theorem digitChar_allowed (n : Nat) : isAllowedChar (digitChar n) = true := by
  unfold digitChar
  split <;> decide

theorem natDecimalAux_allowed :
    ∀ (fuel n : Nat), ∀ ch ∈ natDecimalAux fuel n,
      isAllowedChar ch = true := by
  intro fuel
  induction fuel with
  | zero => intro n ch h; exact absurd h (List.not_mem_nil ch)
  | succ m ih =>
    intro n ch h
    rw [natDecimalAux] at h
    split at h
    · rw [List.mem_singleton.mp h]
      exact digitChar_allowed n
    · rcases List.mem_append.mp h with h | h
      · exact ih _ ch h
      · rw [List.mem_singleton.mp h]
        exact digitChar_allowed _

theorem fallbackName_ne_empty (m : Nat) : "layer_" ++ natToString m ≠ "" := by
  intro h
  have hd := congrArg String.data h
  rw [String.data_append] at hd
  have hl : ("layer_").data = 'l' :: "ayer_".data := rfl
  rw [hl] at hd
  simp at hd

theorem fallbackName_allowed (m : Nat) :
    ∀ ch ∈ ("layer_" ++ natToString m).data, isAllowedChar ch = true := by
  intro ch h
  rw [String.data_append] at h
  rcases List.mem_append.mp h with h | h
  · have hall : ∀ c ∈ ("layer_").data, isAllowedChar c = true := by decide
    exact hall ch h
  · exact natDecimalAux_allowed _ _ ch h

theorem mem_of_mem_dropWhile {p : Char → Bool} :
    ∀ {l : List Char} {ch : Char}, ch ∈ l.dropWhile p → ch ∈ l := by
  intro l
  induction l with
  | nil => intro ch h; exact h
  | cons hd tl ih =>
    intro ch h
    rw [List.dropWhile_cons] at h
    split at h
    · exact List.mem_cons_of_mem hd (ih h)
    · exact h

theorem mem_of_mem_trimUnderscores {l : List Char} {ch : Char}
    (h : ch ∈ trimUnderscores l) : ch ∈ l := by
  unfold trimUnderscores at h
  rw [List.mem_reverse] at h
  have h1 := mem_of_mem_dropWhile h
  rw [List.mem_reverse] at h1
  exact mem_of_mem_dropWhile h1

/-- For every input name - including none, the empty string, pure
whitespace or a string of disallowed characters - and every fallback
index, `sanitizeLayerName` returns a non-empty string drawn only from
A-Z, a-z, 0-9, '.', '_' and '-', falling back to `layer_{index+1}`
when sanitization leaves nothing; this holds for every behavior of the
platform's NFKD normalization.  (Claim C10.) -/
theorem sanitizeLayerName_safe (normalize : String → String)
    (name : Option String) (fallbackIndex : Nat) :
    sanitizeLayerName normalize name fallbackIndex ≠ "" ∧
    (∀ ch ∈ (sanitizeLayerName normalize name fallbackIndex).data,
      isAllowedChar ch = true) ∧
    (sanitizeCore normalize name fallbackIndex = [] →
      sanitizeLayerName normalize name fallbackIndex
        = "layer_" ++ natToString (fallbackIndex + 1)) := by
  by_cases hcore : sanitizeCore normalize name fallbackIndex = []
  · rw [sanitizeLayerName, if_pos hcore]
    exact ⟨fallbackName_ne_empty _, fallbackName_allowed _, fun _ => rfl⟩
  · rw [sanitizeLayerName, if_neg hcore]
    refine ⟨?_, ?_, fun h => absurd h hcore⟩
    · intro h
      exact hcore (by simpa using congrArg String.data h)
    · intro ch hch
      have hch' : ch ∈ sanitizeCore normalize name fallbackIndex := hch
      unfold sanitizeCore at hch'
      have h1 := mem_of_mem_trimUnderscores hch'
      exact (List.mem_filter.mp h1).2

/-- Hexadecimal digit character. -/
def hexDigitChar (n : Nat) : Char :=
  match n with
  | 0 => '0' | 1 => '1' | 2 => '2' | 3 => '3' | 4 => '4' | 5 => '5'
  | 6 => '6' | 7 => '7' | 8 => '8' | 9 => '9' | 10 => 'a' | 11 => 'b'
  | 12 => 'c' | 13 => 'd' | 14 => 'e' | _ => 'f'

/-- One clamped channel as two hex digits:
`Math.max(0, Math.min(255, value)).toString(16).padStart(2, "0")` of
line 201 (the lower clamp is vacuous on naturals). -/
def hexPair (value : Nat) : List Char :=
  [hexDigitChar (min value 255 / 16), hexDigitChar (min value 255 % 16)]

/-- Embedding of `toHexColor(color)` (lines 196-203) for a present
color; the null case is `Option.map` at the call sites. -/
def toHexColor (color : Color) : String :=
  String.mk ('#' :: (hexPair color.r ++ hexPair color.g ++ hexPair color.b))

theorem toHexColor_ne_empty (color : Color) : toHexColor color ≠ "" := by
  intro h
  have hd := congrArg String.data h
  simp [toHexColor] at hd

/-- The options bag of `renderCanvasToSquare` (lines 335-338): absent
fields of the JS `options` object are `none` / `false`. -/
structure RenderOptions where
  size : Option Nat
  removeBackground : Bool
  generateBackground : Bool
  background : Option String
  backgroundTolerance : Option Int

/-- Embedding of `fillOutputBackground(context, size, background)`
(lines 300-307), as the pixel content of the freshly created size x
size output canvas: `clearRect` leaves the fresh canvas fully
transparent, `fillRect` paints every pixel with the CSS color, parsed
by the browser (`cssFill`). -/
def fillOutputBackground (cssFill : String → Rgba) (size : Nat)
    (background : String) : List Rgba :=
  if background = "transparent" then
    List.replicate (size * size) ⟨0, 0, 0, 0⟩
  else List.replicate (size * size) (cssFill background)

theorem fillOutputBackground_length (cssFill : String → Rgba) (size : Nat)
    (background : String) :
    (fillOutputBackground cssFill size background).length = size * size := by
  unfold fillOutputBackground
  split <;> rw [List.length_replicate]

/-- Per-pixel application of the abstract resampling `drawImage`: the
destination buffer is rewritten pixel by pixel (dimensions and length
are untouched, as `drawImage` never resizes its destination canvas). -/
def mapWithIndex (f : Nat → Rgba → Rgba) : Nat → List Rgba → List Rgba
  | _, [] => []
  | i, px :: rest => f i px :: mapWithIndex f (i + 1) rest

theorem mapWithIndex_length (f : Nat → Rgba → Rgba) :
    ∀ (i : Nat) (l : List Rgba), (mapWithIndex f i l).length = l.length := by
  intro i l
  induction l generalizing i with
  | nil => rfl
  | cons px rest ih => simp [mapWithIndex, ih]

theorem removeConnectedBackground_dims (c : Canvas) (color : Option Color)
    (tolerance : Int) :
    (removeConnectedBackground c color tolerance).width = c.width ∧
    (removeConnectedBackground c color tolerance).height = c.height ∧
    (removeConnectedBackground c color tolerance).pix.length
      = c.pix.length := by
  cases color with
  | none => exact ⟨rfl, rfl, rfl⟩
  | some col =>
    refine ⟨rfl, rfl, ?_⟩
    show (applyVisited _ 0 c.pix).length = c.pix.length
    rw [applyVisited_length]

/-- The result record of `renderCanvasToSquare` (lines 364-370); the
returned `blob` is the lossless PNG encoding of `output`, produced by
the external encoder, so the model carries the canvas itself. -/
structure RenderResult where
  output : Canvas
  sourceWidth : Nat
  sourceHeight : Nat
  placement : PlacementQ
  dominantBackground : String

/-- Embedding of `renderCanvasToSquare(sourceCanvas, options)` (lines
334-371).  The browser's high-quality resampling `drawImage` is the
parameter `drawFn`, mapping destination index and old pixel to the new
pixel given the source canvas and placement; CSS color parsing is
`cssFill`. -/
def renderCanvasToSquare (drawFn : Canvas → PlacementQ → Nat → Rgba → Rgba)
    (cssFill : String → Rgba) (sourceCanvas : Canvas)
    (options : RenderOptions) : Except ProcError RenderResult :=
  let size := options.size.getD TARGET_SIZE
  let removeBackground := options.removeBackground
  let generateBackground := options.generateBackground
  let fallbackBackground := options.background.getD "#ffffff"
  let sourceWidth := sourceCanvas.width
  let sourceHeight := sourceCanvas.height
  let dominantColor := detectDominantBorderColor sourceCanvas
  let dominantHex := Option.map toHexColor dominantColor
  let outputBackground :=
    if removeBackground then "transparent"
    else
      match generateBackground, dominantHex with
      | true, some hx => if hx = "" then fallbackBackground else hx
      | _, _ => fallbackBackground
  let outputCanvas : Canvas :=
    ⟨size, size, fillOutputBackground cssFill size outputBackground⟩
  match computeContainPlacement (sourceWidth : ℚ) (sourceHeight : ℚ)
      (size : ℚ) with
  | .error e => .error e
  | .ok placement =>
    let drawn : Canvas := ⟨size, size,
      mapWithIndex (drawFn sourceCanvas placement) 0 outputCanvas.pix⟩
    let finalCanvas :=
      if removeBackground && dominantColor.isSome then
        removeConnectedBackground drawn dominantColor
          (options.backgroundTolerance.getD 42)
      else drawn
    .ok {
      output := finalCanvas
      sourceWidth := sourceWidth
      sourceHeight := sourceHeight
      placement := placement
      dominantBackground := dominantHex.getD ""
    }

/-- For every source buffer, options, resampler behavior and CSS color
parser, when the source and target dimensions are positive,
`renderCanvasToSquare` succeeds with an output canvas of exactly size x
size pixels, and the output equals the fill-then-draw pipeline run with
the fill of the claimed precedence - transparent when removeBackground
is set, else the detected dominant border color when generateBackground
is set and detection succeeded, else the fallback color - with the
detected color punched out (removeConnectedBackground) exactly when
removeBackground is set and detection succeeded.  (Claim C2.) -/
theorem renderCanvasToSquare_spec
    (drawFn : Canvas → PlacementQ → Nat → Rgba → Rgba)
    (cssFill : String → Rgba) (src : Canvas) (options : RenderOptions)
    (hw : 0 < src.width) (hh : 0 < src.height)
    (hs : 0 < options.size.getD TARGET_SIZE) :
    ∃ res p,
      computeContainPlacement (src.width : ℚ) (src.height : ℚ)
        ((options.size.getD TARGET_SIZE : Nat) : ℚ) = .ok p ∧
      renderCanvasToSquare drawFn cssFill src options = .ok res ∧
      res.placement = p ∧
      res.output.width = options.size.getD TARGET_SIZE ∧
      res.output.height = options.size.getD TARGET_SIZE ∧
      res.output.pix.length
        = options.size.getD TARGET_SIZE * options.size.getD TARGET_SIZE ∧
      res.output =
        (let size := options.size.getD TARGET_SIZE
         let fill :=
           if options.removeBackground then "transparent"
           else if options.generateBackground = true ∧
               (detectDominantBorderColor src).isSome = true then
             toHexColor ((detectDominantBorderColor src).getD ⟨0, 0, 0⟩)
           else options.background.getD "#ffffff"
         let drawn : Canvas := ⟨size, size,
           mapWithIndex (drawFn src p) 0
             (fillOutputBackground cssFill size fill)⟩
         if options.removeBackground
             && (detectDominantBorderColor src).isSome then
           removeConnectedBackground drawn (detectDominantBorderColor src)
             (options.backgroundTolerance.getD 42)
         else drawn) := by
  have hpos : ¬((src.width : ℚ) ≤ 0 ∨ (src.height : ℚ) ≤ 0 ∨
      ((options.size.getD TARGET_SIZE : Nat) : ℚ) ≤ 0) := by
    push_neg
    exact ⟨by exact_mod_cast hw, by exact_mod_cast hh, by exact_mod_cast hs⟩
  obtain ⟨p, hp⟩ := (computeContainPlacement_error_iff _ _ _).2 hpos
  unfold renderCanvasToSquare
  dsimp only
  rw [hp]
  dsimp only
  cases hdet : detectDominantBorderColor src with
  | none =>
    cases hrb : options.removeBackground with
    | false =>
      cases hgb : options.generateBackground with
      | false =>
        refine ⟨_, p, rfl, rfl, rfl, ?_, ?_, ?_, ?_⟩ <;>
          simp [mapWithIndex_length, fillOutputBackground_length]
      | true =>
        refine ⟨_, p, rfl, rfl, rfl, ?_, ?_, ?_, ?_⟩ <;>
          simp [mapWithIndex_length, fillOutputBackground_length]
    | true =>
      cases hgb : options.generateBackground with
      | false =>
        refine ⟨_, p, rfl, rfl, rfl, ?_, ?_, ?_, ?_⟩ <;>
          simp [mapWithIndex_length, fillOutputBackground_length]
      | true =>
        refine ⟨_, p, rfl, rfl, rfl, ?_, ?_, ?_, ?_⟩ <;>
          simp [mapWithIndex_length, fillOutputBackground_length]
  | some col =>
    cases hrb : options.removeBackground with
    | false =>
      cases hgb : options.generateBackground with
      | false =>
        refine ⟨_, p, rfl, rfl, rfl, ?_, ?_, ?_, ?_⟩ <;>
          simp [mapWithIndex_length, fillOutputBackground_length]
      | true =>
        refine ⟨_, p, rfl, rfl, rfl, ?_, ?_, ?_, ?_⟩ <;>
          simp [mapWithIndex_length, fillOutputBackground_length,
            toHexColor_ne_empty]
    | true =>
      cases hgb : options.generateBackground with
      | false =>
        refine ⟨_, p, rfl, rfl, rfl, ?_, ?_, ?_, ?_⟩ <;>
          simp [mapWithIndex_length, fillOutputBackground_length,
            removeConnectedBackground_dims]
      | true =>
        refine ⟨_, p, rfl, rfl, rfl, ?_, ?_, ?_, ?_⟩ <;>
          simp [mapWithIndex_length, fillOutputBackground_length,
            removeConnectedBackground_dims]

/-- Witness for claim C2: a 1x1 source rendered into a 2x2 square with
the identity resampler and a constant white CSS parser. -/
theorem renderCanvasToSquare_spec_witness :
    0 < (Canvas.mk 1 1 [⟨1, 2, 3, 255⟩]).width ∧
    0 < (Canvas.mk 1 1 [⟨1, 2, 3, 255⟩]).height ∧
    0 < (RenderOptions.mk (some 2) false false none none).size.getD
      TARGET_SIZE ∧
    (∃ res p,
      computeContainPlacement
        ((Canvas.mk 1 1 [⟨1, 2, 3, 255⟩]).width : ℚ)
        ((Canvas.mk 1 1 [⟨1, 2, 3, 255⟩]).height : ℚ)
        (((RenderOptions.mk (some 2) false false none none).size.getD
          TARGET_SIZE : Nat) : ℚ) = .ok p ∧
      renderCanvasToSquare (fun _ _ _ px => px)
        (fun _ => ⟨255, 255, 255, 255⟩) (Canvas.mk 1 1 [⟨1, 2, 3, 255⟩])
        (RenderOptions.mk (some 2) false false none none) = .ok res ∧
      res.placement = p ∧
      res.output.width
        = (RenderOptions.mk (some 2) false false none none).size.getD
          TARGET_SIZE ∧
      res.output.height
        = (RenderOptions.mk (some 2) false false none none).size.getD
          TARGET_SIZE ∧
      res.output.pix.length
        = (RenderOptions.mk (some 2) false false none none).size.getD
            TARGET_SIZE
          * (RenderOptions.mk (some 2) false false none none).size.getD
            TARGET_SIZE ∧
      res.output =
        (let size := (RenderOptions.mk (some 2) false false none
            none).size.getD TARGET_SIZE
         let fill :=
           if (RenderOptions.mk (some 2) false false none
              none).removeBackground then "transparent"
           else if (RenderOptions.mk (some 2) false false none
                none).generateBackground = true ∧
               (detectDominantBorderColor
                 (Canvas.mk 1 1 [⟨1, 2, 3, 255⟩])).isSome = true then
             toHexColor ((detectDominantBorderColor
               (Canvas.mk 1 1 [⟨1, 2, 3, 255⟩])).getD ⟨0, 0, 0⟩)
           else (RenderOptions.mk (some 2) false false none
             none).background.getD "#ffffff"
         let drawn : Canvas := ⟨size, size,
           mapWithIndex ((fun _ _ _ px => px)
               (Canvas.mk 1 1 [⟨1, 2, 3, 255⟩]) p) 0
             (fillOutputBackground (fun _ => ⟨255, 255, 255, 255⟩) size
               fill)⟩
         if (RenderOptions.mk (some 2) false false none
              none).removeBackground
             && (detectDominantBorderColor
               (Canvas.mk 1 1 [⟨1, 2, 3, 255⟩])).isSome then
           removeConnectedBackground drawn
             (detectDominantBorderColor (Canvas.mk 1 1 [⟨1, 2, 3, 255⟩]))
             ((RenderOptions.mk (some 2) false false none
               none).backgroundTolerance.getD 42)
         else drawn)) :=
  ⟨by decide, by decide, by decide,
    renderCanvasToSquare_spec (fun _ _ _ px => px)
      (fun _ => ⟨255, 255, 255, 255⟩) (Canvas.mk 1 1 [⟨1, 2, 3, 255⟩])
      (RenderOptions.mk (some 2) false false none none)
      (by decide) (by decide) (by decide)⟩

/-- The layer tree of a decoded PSD as `collectPsdLayers` consumes it:
a forest where each node carries the layer name, its child forest
(empty for a non-group layer, mirroring `Array.isArray(children) &&
children.length > 0`), the layer's own decoded pixel data when present
(`buildLayerCanvas` returns a canvas or null), its (left, top) offset,
and the rest of its sibling sequence. -/
inductive LayerForest where
  | nil : LayerForest
  | node (name : Option String) (children : LayerForest)
      (canvas : Option Canvas) (left top : Int) (rest : LayerForest) :
      LayerForest

/-- A decoded PSD document: dimensions plus the root layer forest
(`psd.children || []`). -/
structure Psd where
  width : Nat
  height : Nat
  children : LayerForest

/-- The document-sized canvas built for one leaf (lines 396-399):
`makeCanvas(psd.width, psd.height)`, `clearRect` (fully transparent),
then `drawImage(layerCanvas, left, top)` at natural scale -
source-over compositing onto a cleared canvas copies the source pixel
wherever the source rectangle lands, transparent elsewhere. -/
def blitAt (src : Canvas) (left top : Int) (w h : Nat) : Canvas :=
  ⟨w, h, (List.range (w * h)).map (fun i =>
    let sx : Int := ((i % w : Nat) : Int) - left
    let sy : Int := ((i / w : Nat) : Int) - top
    if 0 ≤ sx ∧ sx < (src.width : Int) ∧ 0 ≤ sy ∧ sy < (src.height : Int)
    then src.pix.getD (sy.toNat * src.width + sx.toNat) default
    else ⟨0, 0, 0, 0⟩)⟩

/-- Embedding of the recursive `walkLayers(layers, prefix)` of
`collectPsdLayers` (lines 376-406): groups recurse with the extended
sanitized path, leaves with usable pixel data contribute one
document-positioned canvas named by the double-underscore-joined path,
other leaves are skipped; `index` is the position among the current
siblings (the `forEach` index used for the sanitize fallback). -/
def walkForest (docW docH : Nat) (normalize : String → String) :
    LayerForest → List String → Nat → List (String × Canvas)
  | .nil, _, _ => []
  | .node name children canvas left top rest, pfx, index =>
    let layerName := sanitizeLayerName normalize name index
    let groupPath := pfx ++ [layerName]
    (match children with
     | .node n c v l t r =>
       walkForest docW docH normalize (.node n c v l t r) groupPath 0
     | .nil =>
       match canvas with
       | none => []
       | some layerCanvas =>
         if layerCanvas.width = 0 ∨ layerCanvas.height = 0 then []
         else [(String.intercalate "__" groupPath,
           blitAt layerCanvas left top docW docH)])
    ++ walkForest docW docH normalize rest pfx (index + 1)

/-- Embedding of `collectPsdLayers(psd)` (lines 373-410). -/
def collectPsdLayers (normalize : String → String) (psd : Psd) :
    List (String × Canvas) :=
  walkForest psd.width psd.height normalize psd.children [] 0

/-- Spec-level count of the leaf layers with usable pixel data (width
and height both positive) in a forest. -/
def usableLeafCount : LayerForest → Nat
  | .nil => 0
  | .node _ children canvas _ _ rest =>
    (match children with
     | .node n c v l t r => usableLeafCount (.node n c v l t r)
     | .nil =>
       match canvas with
       | none => 0
       | some cv => if cv.width = 0 ∨ cv.height = 0 then 0 else 1)
    + usableLeafCount rest

/-- One element of the result of `extractPsdLayersToSquarePng` (lines
440-444): the rendered square plus the layer's path name and index. -/
structure LayerOutput where
  render : RenderResult
  layerName : String
  layerIndex : Nat

/-- Embedding of `extractPsdLayersToSquarePng(file, options)` (lines
417-447) from the decoded document on - the `.psd` extension check and
`readPsd` belong to the external decoder.  A document without
dimensions fails as unreadable, a document whose walk yields no layers
fails with the empty-document error, otherwise every collected layer
is rendered in order, the first render failure aborting the loop. -/
def extractPsdLayersToSquarePng
    (drawFn : Canvas → PlacementQ → Nat → Rgba → Rgba)
    (cssFill : String → Rgba) (normalize : String → String) (psd : Psd)
    (options : RenderOptions) : Except ProcError (List LayerOutput) :=
  if psd.width = 0 ∨ psd.height = 0 then .error .psdUnreadable
  else
    let layers := collectPsdLayers normalize psd
    if layers.length = 0 then .error .emptyDocument
    else
      layers.enum.mapM (fun e =>
        (renderCanvasToSquare drawFn cssFill e.2.2 options).map
          (fun rendered =>
            { render := rendered, layerName := e.2.1, layerIndex := e.1 }))

theorem walkForest_length (docW docH : Nat) (normalize : String → String) :
    ∀ (f : LayerForest) (pfx : List String) (index : Nat),
      (walkForest docW docH normalize f pfx index).length
        = usableLeafCount f := by
  intro f
  induction f with
  | nil => intro pfx index; rfl
  | node name children canvas left top rest ihc ihr =>
    intro pfx index
    cases children with
    | nil =>
      cases canvas with
      | none => simp [walkForest, usableLeafCount, ihr]
      | some cv =>
        by_cases hcv : cv.width = 0 ∨ cv.height = 0
        · simp [walkForest, usableLeafCount, hcv, ihr]
        · simp [walkForest, usableLeafCount, hcv, ihr]
          omega
    | node n c v l t r =>
      simp [walkForest, usableLeafCount, ihc, ihr]

theorem computeContainPlacement_error_kind
    {sourceWidth sourceHeight size : ℚ} {e : ProcError}
    (h : computeContainPlacement sourceWidth sourceHeight size = .error e) :
    e = ProcError.invalidDimensions := by
  unfold computeContainPlacement at h
  split at h
  · exact (Except.error.injEq _ _).mp h |>.symm
  · exact Except.noConfusion h

theorem renderCanvasToSquare_error
    {drawFn : Canvas → PlacementQ → Nat → Rgba → Rgba}
    {cssFill : String → Rgba} {src : Canvas} {options : RenderOptions}
    {e : ProcError}
    (h : renderCanvasToSquare drawFn cssFill src options = .error e) :
    e = ProcError.invalidDimensions := by
  unfold renderCanvasToSquare at h
  dsimp only at h
  cases hc : computeContainPlacement (src.width : ℚ) (src.height : ℚ)
      ((options.size.getD TARGET_SIZE : Nat) : ℚ) with
  | error e' =>
    rw [hc] at h
    dsimp only at h
    rw [(Except.error.injEq _ _).mp h] at hc
    exact computeContainPlacement_error_kind hc
  | ok p =>
    rw [hc] at h
    dsimp only at h
    exact Except.noConfusion h

theorem mapM_except_error {α β : Type}
    (f : α → Except ProcError β) :
    ∀ (l : List α) (e : ProcError), l.mapM f = .error e →
      ∃ a, a ∈ l ∧ f a = .error e := by
  intro l
  induction l with
  | nil =>
    intro e h
    exact Except.noConfusion h
  | cons hd tl ih =>
    intro e h
    rw [List.mapM_cons] at h
    cases hf : f hd with
    | error e' =>
      rw [hf] at h
      have he : e' = e := by
        simpa [Bind.bind, Except.bind] using h
      exact ⟨hd, List.mem_cons_self _ _, by rw [hf, he]⟩
    | ok b =>
      rw [hf] at h
      cases ht : tl.mapM f with
      | error e'' =>
        rw [ht] at h
        have he : e'' = e := by
          simpa [Bind.bind, Except.bind] using h
        obtain ⟨a, ha, hfa⟩ := ih e'' ht
        exact ⟨a, List.mem_cons_of_mem _ ha, by rw [hfa, he]⟩
      | ok bs =>
        rw [ht] at h
        simp [Bind.bind, Except.bind, Pure.pure, Except.pure] at h

/-- The layer-decomposition pipeline fails with the empty-document
error exactly when the full tree walk yields zero leaf layers with
usable pixel data: leaves without pixel data are silently skipped by
the walk, and with at least one usable leaf the pipeline never raises
that error (a later render failure is the distinct invalid-dimensions
error).  (Claim C7.) -/
theorem extractPsdLayers_emptyDocument_iff
    (drawFn : Canvas → PlacementQ → Nat → Rgba → Rgba)
    (cssFill : String → Rgba) (normalize : String → String) (psd : Psd)
    (options : RenderOptions)
    (hw : psd.width ≠ 0) (hh : psd.height ≠ 0) :
    (extractPsdLayersToSquarePng drawFn cssFill normalize psd options
        = .error .emptyDocument
      ↔ usableLeafCount psd.children = 0) := by
  unfold extractPsdLayersToSquarePng
  rw [if_neg (by tauto : ¬(psd.width = 0 ∨ psd.height = 0))]
  dsimp only
  have hlen : (collectPsdLayers normalize psd).length
      = usableLeafCount psd.children :=
    walkForest_length psd.width psd.height normalize psd.children [] 0
  rw [hlen]
  by_cases hcnt : usableLeafCount psd.children = 0
  · rw [if_pos hcnt]
    simp [hcnt]
  · rw [if_neg hcnt]
    constructor
    · intro h
      exfalso
      obtain ⟨a, _, ha⟩ := mapM_except_error _ _ _ h
      cases hr : renderCanvasToSquare drawFn cssFill a.2.2 options with
      | error e' =>
        rw [hr] at ha
        have he : e' = ProcError.emptyDocument :=
          (Except.error.injEq _ _).mp ha
        rw [he] at hr
        exact ProcError.noConfusion (renderCanvasToSquare_error hr)
      | ok r =>
        rw [hr] at ha
        exact Except.noConfusion ha
    · intro h
      exact absurd h hcnt

/-- Witness for claim C7: a 1x1 document with one usable leaf and one
pixel-less leaf does not raise the empty-document error. -/
theorem extractPsdLayers_emptyDocument_iff_witness :
    (Psd.mk 1 1 (LayerForest.node (some "a") .nil
        (some (Canvas.mk 1 1 [⟨9, 9, 9, 255⟩])) 0 0
        (LayerForest.node (some "b") .nil none 0 0 .nil))).width ≠ 0 ∧
    (Psd.mk 1 1 (LayerForest.node (some "a") .nil
        (some (Canvas.mk 1 1 [⟨9, 9, 9, 255⟩])) 0 0
        (LayerForest.node (some "b") .nil none 0 0 .nil))).height ≠ 0 ∧
    (extractPsdLayersToSquarePng (fun _ _ _ px => px)
        (fun _ => ⟨255, 255, 255, 255⟩) (fun s => s)
        (Psd.mk 1 1 (LayerForest.node (some "a") .nil
          (some (Canvas.mk 1 1 [⟨9, 9, 9, 255⟩])) 0 0
          (LayerForest.node (some "b") .nil none 0 0 .nil)))
        (RenderOptions.mk (some 2) false false none none)
        = .error .emptyDocument
      ↔ usableLeafCount (LayerForest.node (some "a") .nil
          (some (Canvas.mk 1 1 [⟨9, 9, 9, 255⟩])) 0 0
          (LayerForest.node (some "b") .nil none 0 0 .nil)) = 0) :=
  ⟨by decide, by decide,
    extractPsdLayers_emptyDocument_iff (fun _ _ _ px => px)
      (fun _ => ⟨255, 255, 255, 255⟩) (fun s => s)
      (Psd.mk 1 1 (LayerForest.node (some "a") .nil
        (some (Canvas.mk 1 1 [⟨9, 9, 9, 255⟩])) 0 0
        (LayerForest.node (some "b") .nil none 0 0 .nil)))
      (RenderOptions.mk (some 2) false false none none)
      (by decide) (by decide)⟩
